import Mathlib

/-!
Verification of the go-filesize package (filesize.go).

The file embeds the two public operations of the package, ParseSize and
FormatSize (plus the ValidateSize wrapper), as executable Lean functions
and proves the frozen claims about them.

Modelling notes, justified line by line against filesize.go:

* Strings are handled as lists of characters. ParseSize works on
  s.data; FormatSize produces a string from a character list.

* Go float64 values are modelled as exact rational numbers together
  with an explicit correct-rounding function (roundCore) implementing
  IEEE-754 binary64 round-to-nearest, ties-to-even, including the
  subnormal range. Every float64 produced by the Go code (the result
  of strconv.ParseFloat on the captured numeral, the product with the
  unit multiplier, the conversion float64(bytes) and the division by
  the unit multiplier) is representable, so the rational carried
  around is exactly the float64 the Go program holds.
  strconv.ParseFloat is correctly rounding and returns a non-nil
  error (ErrRange) when the value rounds to plus infinity, that is
  when the rounded value reaches 2^1024, or when a nonzero numeral
  underflows to zero. A float64 product that overflows gives +Inf,
  which compares greater than the overflow bound; the single
  comparison in the model makes the same decision.

* The regular expression (line 65 of filesize.go)
      (caret) (digits (dot digits)?) spaces* letters* (dollar)
  with RE2 classes d = [0-9], s = [tab lf ff cr space],
  letter = [a-zA-Z], anchored at both ends, is matched by the
  deterministic scanner parseRegexMatch below. Greedy matching is
  deterministic here: after a maximal digit run the next character is
  not a digit, so no backtracking of the first group can succeed; the
  optional fraction group requires a dot followed by at least one
  digit; leftover spaces cannot be consumed by the letter class, and
  leftover letters cannot precede the anchor. Hence the scanner
  returns exactly the capture groups of FindStringSubmatch.

* strings.TrimSpace trims characters satisfying unicode.IsSpace;
  the predicate isSpaceGo lists that set. strings.ToLower only
  affects the unit capture, which consists of ASCII letters, so it is
  modelled by asciiLower.

* Go's float64 to int64 conversion truncates toward zero; for values
  out of int64 range the result is implementation-dependent, and the
  gc compiler on amd64 produces the minimum int64 (cvttsd2si). The
  function int64OfFloat models the gc/amd64 behaviour.

* fmt.Sprintf with verbs %.0f, %.1f, %.2f prints the float64
  correctly rounded to the given number of decimals (strconv's ftoa
  rounds the exact binary value to nearest, ties to even), with
  trailing zeros kept; fixedStr implements that.
-/

namespace Filesize

attribute [local semireducible] Rat.mul Rat.add Rat.sub Rat.inv

set_option maxRecDepth 40000

/-! ## Character classes -/

/-- RE2 class d = [0-9] used in parseRegex. -/
def isDigit (c : Char) : Bool := decide (48 ≤ c.toNat ∧ c.toNat ≤ 57)

/-- RE2 class [a-zA-Z] used in parseRegex. -/
def isAlpha (c : Char) : Bool :=
  decide ((65 ≤ c.toNat ∧ c.toNat ≤ 90) ∨ (97 ≤ c.toNat ∧ c.toNat ≤ 122))

/-- RE2 whitespace class s = [tab lf ff cr space] used in parseRegex. -/
def isSpaceRe (c : Char) : Bool :=
  decide (c.toNat = 9 ∨ c.toNat = 10 ∨ c.toNat = 12 ∨ c.toNat = 13 ∨ c.toNat = 32)

/-- Whitespace recognised by Go unicode.IsSpace, used by strings.TrimSpace. -/
def isSpaceGo (c : Char) : Bool :=
  decide (c.toNat = 9 ∨ c.toNat = 10 ∨ c.toNat = 11 ∨ c.toNat = 12 ∨ c.toNat = 13 ∨
    c.toNat = 32 ∨ c.toNat = 133 ∨ c.toNat = 160 ∨ c.toNat = 0x1680 ∨
    (0x2000 ≤ c.toNat ∧ c.toNat ≤ 0x200A) ∨ c.toNat = 0x2028 ∨ c.toNat = 0x2029 ∨
    c.toNat = 0x202F ∨ c.toNat = 0x205F ∨ c.toNat = 0x3000)

/-- ASCII lower-casing; strings.ToLower restricted to the [a-zA-Z]* capture. -/
def asciiLower (c : Char) : Char :=
  if h : 65 ≤ c.toNat ∧ c.toNat ≤ 90 then
    ⟨⟨⟨c.toNat + 32, by omega⟩⟩, Or.inl (by change c.toNat + 32 < 55296; omega)⟩
  else c

/-! ## List scanning helpers (greedy character runs) -/

/-- Longest prefix of characters satisfying p, plus the rest. -/
def spanD (p : Char → Bool) : List Char → List Char × List Char
  | [] => ([], [])
  | c :: cs => if p c then ((spanD p cs).1.cons c, (spanD p cs).2) else ([], c :: cs)

/-- Drop the longest prefix of characters satisfying p. -/
def dropD (p : Char → Bool) : List Char → List Char
  | [] => []
  | c :: cs => if p c then dropD p cs else c :: cs

/-- strings.TrimSpace: remove leading and trailing whitespace. -/
def trimSpace (l : List Char) : List Char :=
  ((dropD isSpaceGo ((dropD isSpaceGo l).reverse)).reverse)

/-! ## Decimal numerals -/

/-- Numeric value of an ASCII digit. -/
def digitVal (c : Char) : ℕ := c.toNat - 48

/-- Value of a digit run read in base 10. -/
def natOfDigits (l : List Char) : ℕ := l.foldl (fun a c => 10 * a + digitVal c) 0

/-- The character of a decimal digit. -/
def digitChar : ℕ → Char
  | 0 => '0'
  | 1 => '1'
  | 2 => '2'
  | 3 => '3'
  | 4 => '4'
  | 5 => '5'
  | 6 => '6'
  | 7 => '7'
  | 8 => '8'
  | _ => '9'

/-- Decimal numeral of a natural number, most significant digit first
(fuel-structured so that it evaluates by kernel reduction). -/
def natNumeralAux : ℕ → ℕ → List Char
  | 0, _ => []
  | fuel+1, n =>
    if n < 10 then [digitChar n]
    else (natNumeralAux fuel (n / 10)).append [digitChar (n % 10)]

/-- Decimal numeral of a natural number, e.g. 1024 becomes "1024". -/
def natNumeral (n : ℕ) : List Char := natNumeralAux (n + 1) n

/-! ## IEEE-754 binary64 rounding, on exact rationals -/

/-- Powers of two in the rationals, computed through natural-number
powers so that kernel evaluation uses the accelerated Nat primitives. -/
def pow2 (e : ℤ) : ℚ :=
  if 0 ≤ e then ((2 ^ e.toNat : ℕ) : ℚ) else (((2 ^ (-e).toNat : ℕ) : ℚ))⁻¹

/-- Powers of ten as rationals, likewise evaluation-friendly. -/
def pow10 (n : ℕ) : ℚ := ((10 ^ n : ℕ) : ℚ)

/-- Round to nearest integer, ties to even (the IEEE-754 default). -/
def rhe (q : ℚ) : ℤ :=
  if q - (⌊q⌋ : ℚ) < 1/2 then ⌊q⌋
  else if 1/2 < q - (⌊q⌋ : ℚ) then ⌊q⌋ + 1
  else if ⌊q⌋ % 2 = 0 then ⌊q⌋ else ⌊q⌋ + 1

/-- Base-2 logarithm on naturals (fuel-structured for kernel reduction). -/
def natLog2Aux : ℕ → ℕ → ℕ
  | 0, _ => 0
  | fuel+1, n => if n < 2 then 0 else natLog2Aux fuel (n / 2) + 1

/-- Floor of the base-2 logarithm of a positive natural. -/
def natLog2 (n : ℕ) : ℕ := natLog2Aux n n

/-- For positive q, the exponent e with 2^e ≤ q < 2^(e+1). -/
def floorLog2Pos (q : ℚ) : ℤ :=
  if q < pow2 ((natLog2 q.num.toNat : ℤ) - (natLog2 q.den : ℤ))
  then (natLog2 q.num.toNat : ℤ) - (natLog2 q.den : ℤ) - 1
  else (natLog2 q.num.toNat : ℤ) - (natLog2 q.den : ℤ)

/-- Correct rounding of a nonnegative rational to the binary64 grid
(unbounded exponent range above; overflow is checked by callers against
2^1024). Normal numbers keep a 53-bit significand; below 2^(-1022) the
grid is the fixed subnormal spacing 2^(-1074). -/
def roundCorePos (q : ℚ) : ℚ :=
  if q ≤ 0 then 0
  else if floorLog2Pos q < -1022 then (rhe (q * pow2 1074) : ℚ) * pow2 (-1074)
  else (rhe (q * pow2 (52 - floorLog2Pos q)) : ℚ) * pow2 (floorLog2Pos q - 52)

/-- Correct rounding of a rational to the binary64 grid (sign-symmetric). -/
def roundCore (q : ℚ) : ℚ := if q < 0 then -roundCorePos (-q) else roundCorePos q

/-- strconv.ParseFloat on a captured numeral whose exact value is q:
correctly rounded result, or an error when the value rounds to +Inf
(reaching 2^1024) or a nonzero numeral underflows to zero (ErrRange). -/
def parseFloatVal (q : ℚ) : Option ℚ :=
  if pow2 1024 ≤ roundCore q then none
  else if q ≠ 0 ∧ roundCore q = 0 then none
  else some (roundCore q)

/-! ## The unit table (lines 14-61 of filesize.go) -/

def Byte : ℤ := 1
def KiB : ℤ := Byte * 1024
def MiB : ℤ := KiB * 1024
def GiB : ℤ := MiB * 1024
def TiB : ℤ := GiB * 1024
def PiB : ℤ := TiB * 1024
def KB : ℤ := Byte * 1000
def MB : ℤ := KB * 1000
def GB : ℤ := MB * 1000
def TB : ℤ := GB * 1000
def PB : ℤ := TB * 1000

/-- unitMap of filesize.go: lowercase unit symbol to multiplier. -/
def unitMap : List (String × ℤ) :=
  [("b", Byte), ("byte", Byte), ("bytes", Byte),
   ("kib", KiB), ("mib", MiB), ("gib", GiB), ("tib", TiB), ("pib", PiB),
   ("k", KiB), ("m", MiB), ("g", GiB), ("t", TiB), ("p", PiB),
   ("kb", KB), ("mb", MB), ("gb", GB), ("tb", TB), ("pb", PB)]

/-- Map lookup on the unit table. -/
def lookupUnit (u : List Char) : Option ℤ := unitMap.lookup (String.mk u)

/-! ## The parser (ParseSize, lines 77-127 of filesize.go) -/

/-- The submatch extraction of parseRegex on an (already trimmed) input:
returns (integer digits, fraction digits, unit letters), where an empty
fraction means the optional group matched nothing. See the modelling
notes at the top of the file for why this deterministic scanner equals
the regex. -/
def fracSplit (rest : List Char) : List Char × List Char :=
  match rest with
  | [] => ([], [])
  | c :: r =>
    if c = '.' then
      (if (spanD isDigit r).1.isEmpty then ([], c :: r) else spanD isDigit r)
    else ([], c :: r)

def parseRegexMatch (l : List Char) : Option (List Char × List Char × List Char) :=
  if (spanD isDigit l).1.isEmpty then none
  else if (spanD isAlpha (dropD isSpaceRe (fracSplit (spanD isDigit l).2).2)).2.isEmpty then
    some ((spanD isDigit l).1, (fracSplit (spanD isDigit l).2).1,
      (spanD isAlpha (dropD isSpaceRe (fracSplit (spanD isDigit l).2).2)).1)
  else none

/-- Exact value of the captured numeral d1 [. d2]. -/
def decValue (d1 d2 : List Char) : ℚ :=
  ((natOfDigits d1 : ℚ) * pow10 d2.length + (natOfDigits d2 : ℚ)) / pow10 d2.length

/-- Error taxonomy of ParseSize, one constructor per return site. -/
inductive SizeError : Type
  | emptyInput
  | invalidFormat
  | invalidNumber
  | negativeSize
  | unknownUnit
  | overflow
  deriving DecidableEq, Repr

instance : DecidableEq (Except SizeError ℤ) := fun a b =>
  match a, b with
  | .ok x, .ok y => if h : x = y then .isTrue (by simp [h]) else .isFalse (by simp [h])
  | .error e, .error f => if h : e = f then .isTrue (by simp [h]) else .isFalse (by simp [h])
  | .ok _, .error _ => .isFalse (by simp)
  | .error _, .ok _ => .isFalse (by simp)

/-- Truncation toward zero of a rational. -/
def ratTrunc (q : ℚ) : ℤ := if q < 0 then -⌊-q⌋ else ⌊q⌋

/-- Go int64(f) for a finite float64 f: truncate toward zero; for
out-of-range values the gc compiler on amd64 yields the minimum int64. -/
def int64OfFloat (q : ℚ) : ℤ :=
  if ratTrunc q < -(2 ^ 63) ∨ 2 ^ 63 - 1 < ratTrunc q then -(2 ^ 63) else ratTrunc q

/-- float64(maxInt64), the overflow bound computed on line 122 of
filesize.go: the nearest float64 to 2^63 - 1, which is 2^63. -/
def maxInt64F : ℚ := roundCore (((2 ^ 63 - 1 : ℕ) : ℚ))

/-- The tail of ParseSize from line 96 on, after a successful regex match
with captures (d1 [. d2]) and u: float parse, negativity check, unit
lookup, multiplication, overflow check, truncation. -/
def parseMatched (d1 d2 u : List Char) : Except SizeError ℤ :=
  match parseFloatVal (decValue d1 d2) with
  | none => .error .invalidNumber
  | some number =>
    if number < 0 then .error .negativeSize
    else if (u.map asciiLower).isEmpty then .ok (int64OfFloat number)
    else
      match lookupUnit (u.map asciiLower) with
      | none => .error .unknownUnit
      | some multiplier =>
        if maxInt64F < roundCore (number * (multiplier : ℚ)) then .error .overflow
        else .ok (int64OfFloat (roundCore (number * (multiplier : ℚ))))

/-- ParseSize of filesize.go on a character list: trim, empty check,
regex match, then the matched tail. -/
def parseSizeL (l : List Char) : Except SizeError ℤ :=
  if (trimSpace l).isEmpty then .error .emptyInput
  else
    match parseRegexMatch (trimSpace l) with
    | none => .error .invalidFormat
    | some (d1, d2, u) => parseMatched d1 d2 u

/-- ParseSize: human-readable size string to bytes. -/
def ParseSize (s : String) : Except SizeError ℤ := parseSizeL s.data

/-! ## The formatter (FormatSize, lines 133-176 of filesize.go) -/

/-- fmt %.prec f: the float64 v printed in fixed decimal notation with
prec digits after the point (correctly rounded, ties to even, trailing
zeros kept). Callers pass nonnegative v. -/
def fixedDigits (v : ℚ) (prec : ℕ) : List Char :=
  List.replicate (prec + 1 - (natNumeral (rhe (v * pow10 prec)).toNat).length) '0' ++
    natNumeral (rhe (v * pow10 prec)).toNat

def fixedStr (v : ℚ) (prec : ℕ) : List Char :=
  if prec = 0 then fixedDigits v prec
  else ((fixedDigits v prec).take ((fixedDigits v prec).length - prec)).append
    ('.' :: (fixedDigits v prec).drop ((fixedDigits v prec).length - prec))

/-- The descending unit list of FormatSize (lines 143-152). -/
def unitsDesc : List (List Char × ℤ) :=
  [(['P', 'i', 'B'], PiB), (['T', 'i', 'B'], TiB), (['G', 'i', 'B'], GiB),
   (['M', 'i', 'B'], MiB), (['K', 'i', 'B'], KiB)]

/-- The body of the unit loop: value := float64(bytes)/float64(multiplier)
(both conversions and the division correctly rounded), then the precision
policy of lines 161-170. -/
def fmtValue (b multiplier : ℤ) : ℚ :=
  roundCore (roundCore (b : ℚ) / roundCore (multiplier : ℚ))

def fmtPrec (value : ℚ) : ℕ :=
  if 100 ≤ value then 0 else if 10 ≤ value then 1 else 2

def renderUnit (b : ℤ) (name : List Char) (multiplier : ℤ) : List Char :=
  (fixedStr (fmtValue b multiplier) (fmtPrec (fmtValue b multiplier))).append (' ' :: name)

/-- The unit-selection loop of FormatSize (lines 155-172), with the
unreachable byte fallback of line 175. -/
def formatLoop (b : ℤ) : List (List Char × ℤ) → List Char
  | [] => (natNumeral b.toNat).append [' ', 'B']
  | (name, multiplier) :: rest =>
    if multiplier ≤ b then renderUnit b name multiplier else formatLoop b rest

/-- FormatSize of filesize.go on a character-list result. -/
def formatSizeL (b : ℤ) : List Char :=
  if b < 0 then ['0', ' ', 'B']
  else if b < KiB then (natNumeral b.toNat).append [' ', 'B']
  else formatLoop b unitsDesc

/-- FormatSize: byte count to human-readable string (binary units). -/
def FormatSize (b : ℤ) : String := String.mk (formatSizeL b)

/-- ValidateSize of filesize.go: run ParseSize, keep only the error. -/
def ValidateSize (s : String) : Option SizeError :=
  match ParseSize s with
  | .ok _ => none
  | .error e => some e

/-! ## Lemmas: powers -/

theorem pow2_eq (e : ℤ) : pow2 e = (2 : ℚ) ^ e := by
  unfold pow2
  split
  · next h =>
    calc ((2 ^ e.toNat : ℕ) : ℚ) = (2 : ℚ) ^ e.toNat := by push_cast; rfl
    _ = (2 : ℚ) ^ (e.toNat : ℤ) := (zpow_natCast 2 e.toNat).symm
    _ = (2 : ℚ) ^ e := by rw [Int.toNat_of_nonneg h]
  · next h =>
    have h2 : (((-e).toNat : ℤ)) = -e := Int.toNat_of_nonneg (by omega)
    calc (((2 ^ (-e).toNat : ℕ) : ℚ))⁻¹ = ((2 : ℚ) ^ (-e).toNat)⁻¹ := by push_cast; rfl
    _ = ((2 : ℚ) ^ ((-e).toNat : ℤ))⁻¹ := by rw [zpow_natCast]
    _ = ((2 : ℚ) ^ (-e))⁻¹ := by rw [h2]
    _ = (2 : ℚ) ^ e := by rw [← zpow_neg, neg_neg]

theorem pow2_pos (e : ℤ) : 0 < pow2 e := by
  rw [pow2_eq]; exact zpow_pos (by norm_num) e

theorem pow2_lt_pow2 {a b : ℤ} (h : a < b) : pow2 a < pow2 b := by
  rw [pow2_eq, pow2_eq]
  exact zpow_lt_zpow_right₀ (by norm_num) h

theorem pow2_le_pow2 {a b : ℤ} (h : a ≤ b) : pow2 a ≤ pow2 b := by
  rw [pow2_eq, pow2_eq]
  exact zpow_le_zpow_right₀ (by norm_num) h

theorem lt_of_pow2_lt {a b : ℤ} (h : pow2 a < pow2 b) : a < b := by
  by_contra hc
  exact absurd (pow2_le_pow2 (not_lt.mp hc)) (not_le.mpr h)

theorem pow2_mul_pow2 (a b : ℤ) : pow2 a * pow2 b = pow2 (a + b) := by
  rw [pow2_eq, pow2_eq, pow2_eq]
  exact (zpow_add₀ (by norm_num) a b).symm

theorem pow10_pos (n : ℕ) : 0 < pow10 n := by
  unfold pow10
  have : 0 < 10 ^ n := Nat.pos_pow_of_pos n (by norm_num)
  exact_mod_cast this

/-! ## Lemmas: characters -/

theorem char_toNat_inj {a b : Char} (h : a.toNat = b.toNat) : a = b := by
  apply Char.eq_of_val_eq
  rcases a with ⟨⟨⟨av, ha⟩⟩, _⟩
  rcases b with ⟨⟨⟨bv, hb⟩⟩, _⟩
  simp only [Char.toNat, UInt32.toNat] at h
  simp_all

theorem asciiLower_toNat (c : Char) : (asciiLower c).toNat =
    if 65 ≤ c.toNat ∧ c.toNat ≤ 90 then c.toNat + 32 else c.toNat := by
  unfold asciiLower
  split <;> rfl

theorem isDigit_asciiLower (c : Char) : isDigit (asciiLower c) = isDigit c := by
  simp only [isDigit, asciiLower_toNat]
  split
  · next h => exact decide_eq_decide.mpr (by omega)
  · rfl

theorem isAlpha_asciiLower (c : Char) : isAlpha (asciiLower c) = isAlpha c := by
  simp only [isAlpha, asciiLower_toNat]
  split
  · next h => exact decide_eq_decide.mpr (by omega)
  · rfl

theorem isSpaceRe_asciiLower (c : Char) : isSpaceRe (asciiLower c) = isSpaceRe c := by
  simp only [isSpaceRe, asciiLower_toNat]
  split
  · next h => exact decide_eq_decide.mpr (by omega)
  · rfl

theorem isSpaceGo_asciiLower (c : Char) : isSpaceGo (asciiLower c) = isSpaceGo c := by
  simp only [isSpaceGo, asciiLower_toNat]
  split
  · next h => exact decide_eq_decide.mpr (by omega)
  · rfl

theorem asciiLower_of_isDigit {c : Char} (h : isDigit c = true) : asciiLower c = c := by
  unfold asciiLower
  rw [dif_neg]
  simp only [isDigit, decide_eq_true_eq] at h
  omega

theorem asciiLower_dot {c : Char} : asciiLower c = '.' ↔ c = '.' := by
  constructor
  · intro h
    have h2 := congrArg Char.toNat h
    rw [asciiLower_toNat] at h2
    apply char_toNat_inj
    change _ = 46 at h2 ⊢
    by_cases hc : 65 ≤ c.toNat ∧ c.toNat ≤ 90
    · rw [if_pos hc] at h2; omega
    · rw [if_neg hc] at h2; exact h2
  · intro h
    rw [h]; rfl

theorem asciiLower_idem (c : Char) : asciiLower (asciiLower c) = asciiLower c := by
  apply char_toNat_inj
  by_cases h : 65 ≤ c.toNat ∧ c.toNat ≤ 90
  · have h1 : (asciiLower c).toNat = c.toNat + 32 := by rw [asciiLower_toNat, if_pos h]
    rw [asciiLower_toNat, h1, if_neg (by omega)]
  · have h1 : (asciiLower c).toNat = c.toNat := by rw [asciiLower_toNat, if_neg h]
    rw [asciiLower_toNat, h1, if_neg h]

/-! ## Lemmas: scanning -/

theorem head?_mem {l : List Char} {c : Char} (h : l.head? = some c) : c ∈ l := by
  cases l with
  | nil => simp at h
  | cons x xs =>
    simp only [List.head?_cons, Option.some.injEq] at h
    simp [h.symm]

theorem spanD_cons_pos {p : Char → Bool} {x : Char} (xs : List Char) (h : p x = true) :
    spanD p (x :: xs) = (x :: (spanD p xs).1, (spanD p xs).2) := by
  simp [spanD, h]

theorem spanD_cons_neg {p : Char → Bool} {x : Char} (xs : List Char) (h : p x = false) :
    spanD p (x :: xs) = ([], x :: xs) := by
  simp [spanD, h]

theorem dropD_cons_pos {p : Char → Bool} {x : Char} (cs : List Char) (h : p x = true) :
    dropD p (x :: cs) = dropD p cs := by
  simp [dropD, h]

theorem dropD_cons_neg {p : Char → Bool} {x : Char} (cs : List Char) (h : p x = false) :
    dropD p (x :: cs) = x :: cs := by
  simp [dropD, h]

theorem spanD_append_all (p : Char → Bool) (xs ys : List Char)
    (hx : ∀ c ∈ xs, p c = true)
    (hy : ∀ c, ys.head? = some c → p c = false) :
    spanD p (xs ++ ys) = (xs, ys) := by
  induction xs with
  | nil =>
    simp only [List.nil_append]
    cases ys with
    | nil => rfl
    | cons y ys' => exact spanD_cons_neg ys' (hy y rfl)
  | cons x xs' ih =>
    have hx' : p x = true := hx x (by simp)
    have ih' := ih (fun c hc => hx c (List.mem_cons_of_mem _ hc))
    rw [List.cons_append, spanD_cons_pos _ hx', ih']

theorem spanD_append_self (p : Char → Bool) (l : List Char) :
    (spanD p l).1 ++ (spanD p l).2 = l := by
  induction l with
  | nil => rfl
  | cons c cs ih =>
    cases h : p c
    · rw [spanD_cons_neg _ h]
      rfl
    · rw [spanD_cons_pos _ h]
      show c :: ((spanD p cs).1 ++ (spanD p cs).2) = c :: cs
      rw [ih]

theorem spanD_mem (p : Char → Bool) (l : List Char) :
    ∀ c ∈ (spanD p l).1, p c = true := by
  induction l with
  | nil => intro c hc; simp [spanD] at hc
  | cons x xs ih =>
    intro c hc
    cases h : p x
    · rw [spanD_cons_neg _ h] at hc
      simp at hc
    · rw [spanD_cons_pos _ h] at hc
      rcases List.mem_cons.mp hc with hc | hc
      · rw [hc]; exact h
      · exact ih c hc

theorem spanD_rest_head (p : Char → Bool) (l : List Char) :
    ∀ c, (spanD p l).2.head? = some c → p c = false := by
  induction l with
  | nil => intro c hc; simp [spanD] at hc
  | cons x xs ih =>
    intro c hc
    cases h : p x
    · rw [spanD_cons_neg _ h] at hc
      have hxc : x = c := by simpa using hc
      rw [← hxc]; exact h
    · rw [spanD_cons_pos _ h] at hc
      exact ih c hc

theorem dropD_all (p : Char → Bool) (l : List Char) (h : ∀ c ∈ l, p c = true) :
    dropD p l = [] := by
  induction l with
  | nil => rfl
  | cons c cs ih =>
    rw [dropD_cons_pos _ (h c (by simp))]
    exact ih (fun c hc => h c (List.mem_cons_of_mem _ hc))

theorem dropD_eq_self (p : Char → Bool) (l : List Char)
    (h : ∀ c, l.head? = some c → p c = false) : dropD p l = l := by
  cases l with
  | nil => rfl
  | cons c cs => exact dropD_cons_neg cs (h c rfl)

theorem dropD_append_all (p : Char → Bool) (xs ys : List Char)
    (hx : ∀ c ∈ xs, p c = true)
    (hy : ∀ c, ys.head? = some c → p c = false) :
    dropD p (xs ++ ys) = ys := by
  induction xs with
  | nil => simpa using dropD_eq_self p ys hy
  | cons x xs' ih =>
    rw [List.cons_append, dropD_cons_pos _ (hx x (by simp))]
    exact ih (fun c hc => hx c (List.mem_cons_of_mem _ hc))

theorem trimSpace_of_heads (l : List Char)
    (h1 : ∀ c, l.head? = some c → isSpaceGo c = false)
    (h2 : ∀ c, l.reverse.head? = some c → isSpaceGo c = false) :
    trimSpace l = l := by
  unfold trimSpace
  rw [dropD_eq_self _ _ h1, dropD_eq_self _ _ h2, List.reverse_reverse]

theorem trimSpace_all_space (l : List Char) (h : ∀ c ∈ l, isSpaceGo c = true) :
    trimSpace l = [] := by
  unfold trimSpace
  rw [dropD_all _ _ h]
  rfl

/-! ## Lemmas: decimal numerals -/

theorem isDigit_digitChar (n : ℕ) : isDigit (digitChar n) = true := by
  match n with
  | 0 => rfl
  | 1 => rfl
  | 2 => rfl
  | 3 => rfl
  | 4 => rfl
  | 5 => rfl
  | 6 => rfl
  | 7 => rfl
  | 8 => rfl
  | n + 9 => rfl

theorem digitVal_digitChar {n : ℕ} (h : n < 10) : digitVal (digitChar n) = n := by
  match n with
  | 0 => rfl
  | 1 => rfl
  | 2 => rfl
  | 3 => rfl
  | 4 => rfl
  | 5 => rfl
  | 6 => rfl
  | 7 => rfl
  | 8 => rfl
  | 9 => rfl
  | n + 10 => omega

theorem natOfDigits_acc (a : ℕ) (l : List Char) :
    l.foldl (fun a c => 10 * a + digitVal c) a = a * 10 ^ l.length + natOfDigits l := by
  induction l generalizing a with
  | nil => simp [natOfDigits]
  | cons c cs ih =>
    show cs.foldl _ (10 * a + digitVal c) = _
    rw [ih]
    have hs : natOfDigits (c :: cs) =
        cs.foldl (fun a c => 10 * a + digitVal c) (10 * 0 + digitVal c) := rfl
    rw [hs, ih]
    simp only [List.length_cons]
    ring

theorem natOfDigits_append (l1 l2 : List Char) :
    natOfDigits (l1 ++ l2) = natOfDigits l1 * 10 ^ l2.length + natOfDigits l2 := by
  unfold natOfDigits
  rw [List.foldl_append]
  exact natOfDigits_acc _ _

theorem natOfDigits_replicate_zero (k : ℕ) (l : List Char) :
    natOfDigits (List.replicate k '0' ++ l) = natOfDigits l := by
  rw [natOfDigits_append]
  have hz : natOfDigits (List.replicate k '0') = 0 := by
    induction k with
    | zero => rfl
    | succ m ih =>
      rw [List.replicate_succ]
      show List.foldl _ (10 * 0 + digitVal '0') _ = 0
      exact ih
  rw [hz]
  omega

theorem natNumeralAux_spec (fuel n : ℕ) (h : n < fuel) :
    natOfDigits (natNumeralAux fuel n) = n ∧
    (∀ c ∈ natNumeralAux fuel n, isDigit c = true) ∧ natNumeralAux fuel n ≠ [] := by
  induction fuel generalizing n with
  | zero => omega
  | succ f ih =>
    by_cases h10 : n < 10
    · have hunf : natNumeralAux (f + 1) n = [digitChar n] := by simp [natNumeralAux, h10]
      refine ⟨?_, ?_, ?_⟩
      · rw [hunf]
        show 10 * 0 + digitVal (digitChar n) = n
        rw [digitVal_digitChar h10]
        omega
      · intro c hc
        rw [hunf, List.mem_singleton] at hc
        rw [hc]; exact isDigit_digitChar n
      · rw [hunf]; simp
    · have hdiv : n / 10 < f := by omega
      obtain ⟨ihv, ihd, ihne⟩ := ih (n / 10) hdiv
      have hunf : natNumeralAux (f + 1) n =
          natNumeralAux f (n / 10) ++ [digitChar (n % 10)] := by
        simp [natNumeralAux, h10]
      refine ⟨?_, ?_, ?_⟩
      · rw [hunf, natOfDigits_append, ihv]
        have hlast : natOfDigits [digitChar (n % 10)] = n % 10 := by
          show 10 * 0 + digitVal (digitChar (n % 10)) = n % 10
          rw [digitVal_digitChar (Nat.mod_lt n (by norm_num))]
          omega
        rw [hlast]
        simp only [List.length_cons, List.length_nil, pow_one, zero_add]
        omega
      · intro c hc
        rw [hunf] at hc
        rcases List.mem_append.mp hc with hc | hc
        · exact ihd c hc
        · rw [List.mem_singleton.mp hc]; exact isDigit_digitChar _
      · rw [hunf]
        simp

theorem natOfDigits_natNumeral (n : ℕ) : natOfDigits (natNumeral n) = n :=
  (natNumeralAux_spec (n + 1) n (by omega)).1

theorem natNumeral_digits (n : ℕ) : ∀ c ∈ natNumeral n, isDigit c = true :=
  (natNumeralAux_spec (n + 1) n (by omega)).2.1

theorem natNumeral_ne_nil (n : ℕ) : natNumeral n ≠ [] :=
  (natNumeralAux_spec (n + 1) n (by omega)).2.2

/-! ## Lemmas: round-half-even to an integer -/

theorem rhe_intCast (n : ℤ) : rhe ((n : ℤ) : ℚ) = n := by
  unfold rhe
  rw [Int.floor_intCast, sub_self, if_pos (by norm_num : (0 : ℚ) < 1/2)]

theorem rhe_natCast (n : ℕ) : rhe ((n : ℕ) : ℚ) = (n : ℤ) := by
  have hc : ((n : ℕ) : ℚ) = ((n : ℤ) : ℚ) := by push_cast; rfl
  rw [hc, rhe_intCast]

theorem rhe_le {q : ℚ} {N : ℤ} (h : q ≤ (N : ℚ)) : rhe q ≤ N := by
  have hf : ⌊q⌋ ≤ N := by
    have h2 := Int.floor_le_floor h
    rwa [Int.floor_intCast] at h2
  have hf1 : ¬(q - (⌊q⌋ : ℚ) < 1/2) → ⌊q⌋ + 1 ≤ N := by
    intro h2
    by_contra hc
    have hfN : ⌊q⌋ = N := by omega
    push_neg at h2
    rw [hfN] at h2
    have hlt : (N : ℚ) < q := by linarith
    linarith
  unfold rhe
  split
  · exact hf
  · next h2 =>
    split
    · exact hf1 h2
    · split
      · exact hf
      · exact hf1 h2

theorem rhe_ge {q : ℚ} {N : ℤ} (h : (N : ℚ) ≤ q) : N ≤ rhe q := by
  have hf : N ≤ ⌊q⌋ := Int.le_floor.mpr h
  unfold rhe
  split
  · exact hf
  · split
    · omega
    · split
      · exact hf
      · omega

/-! ## Lemmas: base-2 logarithm -/

theorem natLog2Aux_spec (fuel n : ℕ) (h1 : 1 ≤ n) (h2 : n ≤ fuel) :
    2 ^ natLog2Aux fuel n ≤ n ∧ n < 2 ^ (natLog2Aux fuel n + 1) := by
  induction fuel generalizing n with
  | zero => omega
  | succ f ih =>
    by_cases hn : n < 2
    · have hn1 : n = 1 := by omega
      subst hn1
      rw [show natLog2Aux (f + 1) 1 = 0 from by simp [natLog2Aux]]
      norm_num
    · have hrec : natLog2Aux (f + 1) n = natLog2Aux f (n / 2) + 1 := by
        simp [natLog2Aux, hn]
      have hd1 : 1 ≤ n / 2 := by omega
      have hd2 : n / 2 ≤ f := by omega
      obtain ⟨ha, hb⟩ := ih (n / 2) hd1 hd2
      rw [hrec]
      constructor
      · have h2a : 2 * 2 ^ natLog2Aux f (n / 2) ≤ 2 * (n / 2) := Nat.mul_le_mul_left 2 ha
        have hpw : 2 ^ (natLog2Aux f (n / 2) + 1) = 2 * 2 ^ natLog2Aux f (n / 2) := by ring
        omega
      · have h2b : 2 * (n / 2 + 1) ≤ 2 * 2 ^ (natLog2Aux f (n / 2) + 1) :=
          Nat.mul_le_mul_left 2 (by omega)
        have hpw : 2 ^ (natLog2Aux f (n / 2) + 1 + 1) = 2 * 2 ^ (natLog2Aux f (n / 2) + 1) := by
          ring
        omega

theorem natLog2_le {n : ℕ} (h : 1 ≤ n) : 2 ^ natLog2 n ≤ n :=
  (natLog2Aux_spec n n h le_rfl).1

theorem natLog2_lt {n : ℕ} (h : 1 ≤ n) : n < 2 ^ (natLog2 n + 1) :=
  (natLog2Aux_spec n n h le_rfl).2

/-! ## Lemmas: the binade of a positive rational -/

theorem pow2_int_of_nonneg {d : ℤ} (h : 0 ≤ d) : pow2 d = ((2 ^ d.toNat : ℕ) : ℚ) := by
  unfold pow2
  rw [if_pos h]

theorem pow2_natCast (n : ℕ) : pow2 (n : ℤ) = ((2 ^ n : ℕ) : ℚ) := by
  rw [pow2_int_of_nonneg (by omega)]
  norm_num

theorem le_of_pow2_le {a b : ℤ} (h : pow2 a ≤ pow2 b) : a ≤ b := by
  by_contra hc
  exact absurd (pow2_lt_pow2 (not_le.mp hc)) (not_lt.mpr h)

theorem pow2_sub (a b : ℤ) : pow2 (a - b) = pow2 a / pow2 b := by
  rw [eq_div_iff (ne_of_gt (pow2_pos b)), pow2_mul_pow2]
  rw [sub_add_cancel]

theorem floorLog2Pos_spec {q : ℚ} (hq : 0 < q) :
    pow2 (floorLog2Pos q) ≤ q ∧ q < pow2 (floorLog2Pos q + 1) := by
  have hnum : 0 < q.num := Rat.num_pos.mpr hq
  have hnum1 : 1 ≤ q.num.toNat := by omega
  have hden1 : 1 ≤ q.den := q.den_pos
  have hqeq : ((q.num.toNat : ℕ) : ℚ) / ((q.den : ℕ) : ℚ) = q := by
    have h1 : ((q.num.toNat : ℕ) : ℚ) = ((q.num : ℤ) : ℚ) := by
      have h2 : ((q.num.toNat : ℕ) : ℤ) = q.num := Int.toNat_of_nonneg (le_of_lt hnum)
      exact_mod_cast h2
    rw [h1]
    exact Rat.num_div_den q
  set n := q.num.toNat with hn
  set d := q.den with hd
  set Ln := natLog2 n with hLn
  set Ld := natLog2 d with hLd
  have hdenQ : (0 : ℚ) < (d : ℚ) := by exact_mod_cast hden1
  have hB : q < pow2 ((Ln : ℤ) - (Ld : ℤ) + 1) := by
    have hNat : n * 2 ^ Ld < 2 ^ (Ln + 1) * d := by
      calc n * 2 ^ Ld < 2 ^ (Ln + 1) * 2 ^ Ld :=
        (Nat.mul_lt_mul_right (pow_pos (by norm_num) Ld)).mpr (natLog2_lt hnum1)
      _ ≤ 2 ^ (Ln + 1) * d := Nat.mul_le_mul_left _ (natLog2_le hden1)
    have hexp : (Ln : ℤ) - (Ld : ℤ) + 1 = ((Ln + 1 : ℕ) : ℤ) - ((Ld : ℕ) : ℤ) := by push_cast; ring
    rw [hexp, pow2_sub, lt_div_iff₀ (pow2_pos _), ← hqeq, pow2_natCast, pow2_natCast,
      div_mul_eq_mul_div, div_lt_iff₀ hdenQ]
    exact_mod_cast hNat
  have hA : pow2 ((Ln : ℤ) - (Ld : ℤ) - 1) < q := by
    have hNat : 2 ^ Ln * d < n * 2 ^ (Ld + 1) := by
      calc 2 ^ Ln * d ≤ n * d := Nat.mul_le_mul_right d (natLog2_le hnum1)
      _ < n * 2 ^ (Ld + 1) := (Nat.mul_lt_mul_left hnum1).mpr (natLog2_lt hden1)
    have hexp : (Ln : ℤ) - (Ld : ℤ) - 1 = ((Ln : ℕ) : ℤ) - ((Ld + 1 : ℕ) : ℤ) := by push_cast; ring
    rw [hexp, pow2_sub, div_lt_iff₀ (pow2_pos _), ← hqeq, pow2_natCast, pow2_natCast,
      div_mul_eq_mul_div, lt_div_iff₀ hdenQ]
    exact_mod_cast hNat
  unfold floorLog2Pos
  rw [← hn, ← hd, ← hLn, ← hLd]
  by_cases hC : q < pow2 ((Ln : ℤ) - (Ld : ℤ))
  · simp only [if_pos hC]
    refine ⟨le_of_lt hA, ?_⟩
    rw [sub_add_cancel]
    exact hC
  · simp only [if_neg hC]
    exact ⟨not_lt.mp hC, hB⟩

theorem floorLog2Pos_le {q : ℚ} {c : ℤ} (hq : 0 < q) (h : q < pow2 (c + 1)) :
    floorLog2Pos q ≤ c := by
  obtain ⟨h1, _⟩ := floorLog2Pos_spec hq
  have hlt : pow2 (floorLog2Pos q) < pow2 (c + 1) := lt_of_le_of_lt h1 h
  have := lt_of_pow2_lt hlt
  omega

theorem floorLog2Pos_ge {q : ℚ} {k : ℤ} (hq : 0 < q) (h : pow2 k ≤ q) :
    k ≤ floorLog2Pos q := by
  obtain ⟨_, h2⟩ := floorLog2Pos_spec hq
  have hlt : pow2 k < pow2 (floorLog2Pos q + 1) := lt_of_le_of_lt h h2
  have := lt_of_pow2_lt hlt
  omega

/-! ## Lemmas: correct rounding to the binary64 grid -/

theorem roundCorePos_nonneg (q : ℚ) : 0 ≤ roundCorePos q := by
  unfold roundCorePos
  split
  · exact le_refl 0
  · next hq0 =>
    have hq : (0 : ℚ) < q := lt_of_not_ge hq0
    have key : ∀ s t : ℤ, 0 ≤ (rhe (q * pow2 s) : ℚ) * pow2 t := by
      intro s t
      apply mul_nonneg
      · have h0 : ((0 : ℤ) : ℚ) ≤ q * pow2 s := by
          push_cast
          exact mul_nonneg (le_of_lt hq) (le_of_lt (pow2_pos s))
        exact_mod_cast rhe_ge h0
      · exact le_of_lt (pow2_pos t)
    split
    · exact key 1074 (-1074)
    · exact key (52 - floorLog2Pos q) (floorLog2Pos q - 52)

theorem roundCore_of_nonneg {q : ℚ} (h : 0 ≤ q) : roundCore q = roundCorePos q := by
  unfold roundCore
  rw [if_neg (not_lt.mpr h)]

theorem pow2_zero : pow2 0 = 1 := by
  rw [pow2_int_of_nonneg le_rfl]
  norm_num

theorem roundCorePos_eq_self {q : ℚ} {m : ℕ} {j : ℤ} (hqm : q = (m : ℚ) * pow2 j)
    (hm : m < 2 ^ 53) (hj : -1022 ≤ j) : roundCorePos q = q := by
  rcases Nat.eq_zero_or_pos m with hm0 | hm1
  · subst hm0
    have hq0 : q = 0 := by rw [hqm]; push_cast; ring
    unfold roundCorePos
    rw [if_pos (le_of_eq hq0), hq0]
  · have hq : 0 < q := by
      rw [hqm]
      exact mul_pos (by exact_mod_cast hm1) (pow2_pos j)
    set e := floorLog2Pos q with he
    have hej : j ≤ e := by
      apply floorLog2Pos_ge hq
      rw [hqm]
      calc pow2 j = 1 * pow2 j := (one_mul _).symm
      _ ≤ (m : ℚ) * pow2 j := by
        apply mul_le_mul_of_nonneg_right _ (le_of_lt (pow2_pos j))
        exact_mod_cast hm1
    have hetop : e ≤ 52 + j := by
      apply floorLog2Pos_le hq
      rw [hqm]
      calc (m : ℚ) * pow2 j
          < ((2 ^ 53 : ℕ) : ℚ) * pow2 j :=
            mul_lt_mul_of_pos_right (by exact_mod_cast hm) (pow2_pos j)
      _ = pow2 (52 + j + 1) := by
        rw [← pow2_natCast, pow2_mul_pow2]
        congr 1
        push_cast
        ring
    have hd : 0 ≤ j + 52 - e := by omega
    have hscaled : q * pow2 (52 - e) = ((m * 2 ^ (j + 52 - e).toNat : ℕ) : ℚ) := by
      rw [hqm, mul_assoc, pow2_mul_pow2, show j + (52 - e) = j + 52 - e from by ring,
        pow2_int_of_nonneg hd]
      push_cast
      ring
    have hres : (rhe (q * pow2 (52 - e)) : ℚ) * pow2 (e - 52) = q := by
      rw [hscaled, rhe_natCast]
      have hcast : (((m * 2 ^ (j + 52 - e).toNat : ℕ) : ℤ) : ℚ) =
          (m : ℚ) * pow2 (j + 52 - e) := by
        rw [pow2_int_of_nonneg hd]
        push_cast
        ring
      rw [hcast, mul_assoc, pow2_mul_pow2, show j + 52 - e + (e - 52) = j from by ring, ← hqm]
    unfold roundCorePos
    rw [if_neg (not_le.mpr hq), ← he, if_neg (show ¬ e < -1022 from by omega)]
    exact hres

theorem roundCorePos_le_pow2 {q : ℚ} {c : ℤ} (hq : 0 < q) (hqc : q ≤ pow2 c)
    (hc : -1074 ≤ c) : roundCorePos q ≤ pow2 c := by
  set e := floorLog2Pos q with he
  have hec : e ≤ c := le_of_pow2_le (le_trans (floorLog2Pos_spec hq).1 hqc)
  have key : ∀ s : ℤ, 0 ≤ c + s → (rhe (q * pow2 s) : ℚ) * pow2 (-s) ≤ pow2 c := by
    intro s hcs
    have hsc : q * pow2 s ≤ ((2 ^ (c + s).toNat : ℕ) : ℚ) := by
      rw [← pow2_int_of_nonneg hcs, ← pow2_mul_pow2]
      exact mul_le_mul_of_nonneg_right hqc (le_of_lt (pow2_pos s))
    have hrhe : rhe (q * pow2 s) ≤ ((2 ^ (c + s).toNat : ℕ) : ℤ) := by
      apply rhe_le
      exact_mod_cast hsc
    calc (rhe (q * pow2 s) : ℚ) * pow2 (-s)
        ≤ (((2 ^ (c + s).toNat : ℕ) : ℤ) : ℚ) * pow2 (-s) := by
          apply mul_le_mul_of_nonneg_right _ (le_of_lt (pow2_pos _))
          exact_mod_cast hrhe
      _ = pow2 c := by
          have hcast : (((2 ^ (c + s).toNat : ℕ) : ℤ) : ℚ) = pow2 (c + s) := by
            rw [pow2_int_of_nonneg hcs]
            push_cast
            ring
          rw [hcast, pow2_mul_pow2, show c + s + -s = c from by ring]
  unfold roundCorePos
  rw [if_neg (not_le.mpr hq), ← he]
  split
  · have hk := key 1074 (by omega)
    rwa [show -(1074 : ℤ) = -1074 from rfl] at hk
  · have hk := key (52 - e) (by omega)
    rwa [show -(52 - e) = e - 52 from by ring] at hk

theorem pow2_le_roundCorePos {q : ℚ} {k : ℤ} (h1 : pow2 k ≤ q) (h2 : q < pow2 (k + 53))
    (hk : -1022 ≤ k) : pow2 k ≤ roundCorePos q := by
  have hq : 0 < q := lt_of_lt_of_le (pow2_pos k) h1
  set e := floorLog2Pos q with he
  have hek : k ≤ e := floorLog2Pos_ge hq h1
  have hetop : e ≤ k + 52 := by
    apply floorLog2Pos_le hq
    rwa [show k + 52 + 1 = k + 53 from by ring]
  have hd : 0 ≤ k + (52 - e) := by omega
  have hM : ((2 ^ (k + (52 - e)).toNat : ℕ) : ℚ) ≤ q * pow2 (52 - e) := by
    rw [← pow2_int_of_nonneg hd, ← pow2_mul_pow2]
    exact mul_le_mul_of_nonneg_right h1 (le_of_lt (pow2_pos _))
  have hrhe : ((2 ^ (k + (52 - e)).toNat : ℕ) : ℤ) ≤ rhe (q * pow2 (52 - e)) := by
    apply rhe_ge
    exact_mod_cast hM
  unfold roundCorePos
  rw [if_neg (not_le.mpr hq), ← he, if_neg (show ¬ e < -1022 from by omega)]
  have hcast : (((2 ^ (k + (52 - e)).toNat : ℕ) : ℤ) : ℚ) = pow2 (k + (52 - e)) := by
    rw [pow2_int_of_nonneg hd]
    push_cast
    ring
  have hstart : pow2 k = (((2 ^ (k + (52 - e)).toNat : ℕ) : ℤ) : ℚ) * pow2 (e - 52) := by
    rw [hcast, pow2_mul_pow2, show k + (52 - e) + (e - 52) = k from by ring]
  rw [hstart]
  exact mul_le_mul_of_nonneg_right (by exact_mod_cast hrhe) (le_of_lt (pow2_pos _))

theorem roundCore_nonneg {q : ℚ} (h : 0 ≤ q) : 0 ≤ roundCore q := by
  rw [roundCore_of_nonneg h]
  exact roundCorePos_nonneg q

theorem roundCore_natCast {n : ℕ} (h : n < 2 ^ 53) : roundCore ((n : ℕ) : ℚ) = ((n : ℕ) : ℚ) := by
  rw [roundCore_of_nonneg (Nat.cast_nonneg n)]
  exact roundCorePos_eq_self (by rw [pow2_zero, mul_one]) h (by norm_num)

/-! ## Lemmas: character class facts -/

theorem not_isDigit_of_isSpaceRe {c : Char} (h : isSpaceRe c = true) : isDigit c = false := by
  simp only [isSpaceRe, decide_eq_true_eq] at h
  simp only [isDigit, decide_eq_false_iff_not]
  omega

theorem not_isDigit_of_isAlpha {c : Char} (h : isAlpha c = true) : isDigit c = false := by
  simp only [isAlpha, decide_eq_true_eq] at h
  simp only [isDigit, decide_eq_false_iff_not]
  omega

theorem not_isSpaceRe_of_isAlpha {c : Char} (h : isAlpha c = true) : isSpaceRe c = false := by
  simp only [isAlpha, decide_eq_true_eq] at h
  simp only [isSpaceRe, decide_eq_false_iff_not]
  omega

theorem not_isSpaceGo_of_isDigit {c : Char} (h : isDigit c = true) : isSpaceGo c = false := by
  simp only [isDigit, decide_eq_true_eq] at h
  simp only [isSpaceGo, decide_eq_false_iff_not]
  omega

theorem not_isSpaceGo_of_isAlpha {c : Char} (h : isAlpha c = true) : isSpaceGo c = false := by
  simp only [isAlpha, decide_eq_true_eq] at h
  simp only [isSpaceGo, decide_eq_false_iff_not]
  omega

theorem ne_dot_of_isDigit {c : Char} (h : isDigit c = true) : ¬ c = '.' := by
  intro hc
  rw [hc] at h
  simp [isDigit] at h

theorem ne_dot_of_isSpaceRe {c : Char} (h : isSpaceRe c = true) : ¬ c = '.' := by
  intro hc
  rw [hc] at h
  simp [isSpaceRe] at h

theorem ne_dot_of_isAlpha {c : Char} (h : isAlpha c = true) : ¬ c = '.' := by
  intro hc
  rw [hc] at h
  simp [isAlpha] at h

/-! ## Lemmas: regex scanner -/

theorem isEmpty_false_of_ne_nil {l : List Char} (h : l ≠ []) : l.isEmpty = false := by
  cases l with
  | nil => exact absurd rfl h
  | cons c cs => rfl

theorem spanD_all (p : Char → Bool) (l : List Char) (h : ∀ c ∈ l, p c = true) :
    spanD p l = (l, []) := by
  have hs := spanD_append_all p l [] h (by intro c hc; simp at hc)
  simpa using hs

theorem fracSplit_nil : fracSplit [] = ([], []) := rfl

theorem fracSplit_not_dot {c : Char} (r : List Char) (h : ¬ c = '.') :
    fracSplit (c :: r) = ([], c :: r) := by
  simp [fracSplit, h]

theorem fracSplit_dot (r : List Char) :
    fracSplit ('.' :: r) =
      if (spanD isDigit r).1.isEmpty then ([], '.' :: r) else spanD isDigit r := by
  simp [fracSplit]

/-- Head of a list that is one of several concatenated class runs: a
convenience case split used to discharge the not-a-digit side conditions. -/
theorem head?_cases (p : Char → Bool) (xs ys : List Char)
    (hx : ∀ c ∈ xs, p c = false) (hy : ∀ c, ys.head? = some c → p c = false) :
    ∀ c, (xs ++ ys).head? = some c → p c = false := by
  intro c hc
  cases xs with
  | nil => exact hy c (by simpa using hc)
  | cons x xs' =>
    simp only [List.cons_append, List.head?_cons, Option.some.injEq] at hc
    rw [← hc]
    exact hx x (by simp)

/-- The scanner on a string of the exact shape
digits [dot digits] spaces letters, anchored: it returns the capture
groups. This is the success-shape lemma for parseRegexMatch. -/
theorem parseRegexMatch_exact (d1 d2 sp u : List Char)
    (hd1ne : d1 ≠ []) (hd1 : ∀ c ∈ d1, isDigit c = true)
    (hd2 : ∀ c ∈ d2, isDigit c = true)
    (hsp : ∀ c ∈ sp, isSpaceRe c = true)
    (hu : ∀ c ∈ u, isAlpha c = true) :
    parseRegexMatch (d1 ++ (if d2.isEmpty then [] else '.' :: d2) ++ sp ++ u) =
      some (d1, d2, u) := by
  have hspNoDigit : ∀ c ∈ sp, isDigit c = false :=
    fun c hc => not_isDigit_of_isSpaceRe (hsp c hc)
  have huNoDigit : ∀ c ∈ u, isDigit c = false :=
    fun c hc => not_isDigit_of_isAlpha (hu c hc)
  have huNoSpace : ∀ c ∈ u, isSpaceRe c = false :=
    fun c hc => not_isSpaceRe_of_isAlpha (hu c hc)
  have hspu_head : ∀ c, (sp ++ u).head? = some c → isDigit c = false :=
    head?_cases isDigit sp u hspNoDigit (fun c hc => huNoDigit c (head?_mem hc))
  have hdrop : dropD isSpaceRe (sp ++ u) = u :=
    dropD_append_all isSpaceRe sp u hsp (fun c hc => huNoSpace c (head?_mem hc))
  have hspanU : spanD isAlpha u = (u, []) := spanD_all isAlpha u hu
  by_cases hd2e : d2.isEmpty
  · have hd2nil : d2 = [] := by
      cases d2 with
      | nil => rfl
      | cons x xs => simp [List.isEmpty] at hd2e
    subst hd2nil
    show parseRegexMatch (d1 ++ [] ++ sp ++ u) = some (d1, [], u)
    have hspan1 : spanD isDigit (d1 ++ [] ++ sp ++ u) = (d1, sp ++ u) := by
      rw [List.append_nil, List.append_assoc]
      exact spanD_append_all isDigit d1 (sp ++ u) hd1 hspu_head
    have hfrac : fracSplit (sp ++ u) = ([], sp ++ u) := by
      cases hspu : sp ++ u with
      | nil => exact fracSplit_nil
      | cons c r =>
        apply fracSplit_not_dot
        have hc : (sp ++ u).head? = some c := by rw [hspu]; rfl
        have : isDigit c = false ∨ True := Or.inr trivial
        cases hsc : sp with
        | nil =>
          have hcu : u.head? = some c := by
            rw [hsc] at hspu
            rw [show ([] : List Char) ++ u = u from rfl] at hspu
            rw [hspu]; rfl
          exact ne_dot_of_isAlpha (hu c (head?_mem hcu))
        | cons s ss =>
          have hcs : c = s := by
            rw [hsc] at hspu
            simp only [List.cons_append] at hspu
            injection hspu with h1 _
            exact h1.symm
          rw [hcs]
          exact ne_dot_of_isSpaceRe (hsp s (by rw [hsc]; simp))
    unfold parseRegexMatch
    rw [hspan1]
    simp only [isEmpty_false_of_ne_nil hd1ne, Bool.false_eq_true, if_false]
    rw [hfrac, hdrop, hspanU]
    rfl
  · rw [if_neg hd2e]
    have hspan1 : spanD isDigit (d1 ++ ('.' :: d2) ++ sp ++ u) =
        (d1, '.' :: (d2 ++ sp ++ u)) := by
      rw [List.append_assoc, List.append_assoc]
      rw [show ('.' :: d2) ++ (sp ++ u) = '.' :: (d2 ++ sp ++ u) from by simp]
      exact spanD_append_all isDigit d1 ('.' :: (d2 ++ sp ++ u)) hd1
        (by
          intro c hc
          simp only [List.head?_cons, Option.some.injEq] at hc
          rw [← hc]
          rfl)
    have hspan2 : spanD isDigit (d2 ++ sp ++ u) = (d2, sp ++ u) := by
      rw [List.append_assoc]
      exact spanD_append_all isDigit d2 (sp ++ u) hd2 hspu_head
    have hd2e' : d2.isEmpty = false := by
      cases d2 with
      | nil => simp at hd2e
      | cons x xs => rfl
    have hfrac : fracSplit ('.' :: (d2 ++ sp ++ u)) = (d2, sp ++ u) := by
      rw [fracSplit_dot, hspan2]
      simp only [hd2e', Bool.false_eq_true, if_false]
    unfold parseRegexMatch
    rw [hspan1]
    simp only [isEmpty_false_of_ne_nil hd1ne, Bool.false_eq_true, if_false]
    rw [hfrac, hdrop, hspanU]
    rfl

/-- Captures produced by a successful scanner run are digit runs and a
letter run, with nonempty integer digits. -/
theorem parseRegexMatch_sound {l d1 d2 u : List Char}
    (h : parseRegexMatch l = some (d1, d2, u)) :
    d1 ≠ [] ∧ (∀ c ∈ d1, isDigit c = true) ∧ (∀ c ∈ d2, isDigit c = true) ∧
      (∀ c ∈ u, isAlpha c = true) := by
  unfold parseRegexMatch at h
  by_cases h1 : (spanD isDigit l).1.isEmpty
  · rw [if_pos h1] at h
    exact absurd h (by simp)
  · rw [if_neg h1] at h
    by_cases h2 : (spanD isAlpha (dropD isSpaceRe (fracSplit (spanD isDigit l).2).2)).2.isEmpty
    · rw [if_pos h2] at h
      have hinj := Option.some.inj h
      obtain ⟨e1, e2, e3⟩ : (spanD isDigit l).1 = d1 ∧
          (fracSplit (spanD isDigit l).2).1 = d2 ∧
          (spanD isAlpha (dropD isSpaceRe (fracSplit (spanD isDigit l).2).2)).1 = u := by
        have e1 := congrArg Prod.fst hinj
        have e23 := congrArg Prod.snd hinj
        have e2 := congrArg Prod.fst e23
        have e3 := congrArg Prod.snd e23
        exact ⟨e1, e2, e3⟩
      refine ⟨?_, ?_, ?_, ?_⟩
      · rw [← e1]
        intro hc
        rw [hc] at h1
        exact h1 rfl
      · rw [← e1]
        exact spanD_mem isDigit l
      · rw [← e2]
        rcases hfs : (spanD isDigit l).2 with _ | ⟨c, r⟩
        · rw [fracSplit_nil]
          intro c hc
          simp at hc
        · by_cases hdot : c = '.'
          · subst hdot
            rw [fracSplit_dot]
            by_cases hsf : (spanD isDigit r).1.isEmpty
            · rw [if_pos hsf]
              intro c hc
              simp at hc
            · rw [if_neg hsf]
              exact spanD_mem isDigit r
          · rw [fracSplit_not_dot _ hdot]
            intro c hc
            simp at hc
      · rw [← e3]
        exact spanD_mem isAlpha _
    · rw [if_neg h2] at h
      exact absurd h (by simp)
/-! ## Lemmas: lower-casing commutes with the scanner -/

theorem isEmpty_map (f : Char → Char) (l : List Char) : (l.map f).isEmpty = l.isEmpty := by
  cases l with
  | nil => rfl
  | cons c cs => rfl

theorem spanD_map_lower (p : Char → Bool) (hp : ∀ c, p (asciiLower c) = p c) (l : List Char) :
    spanD p (l.map asciiLower) =
      ((spanD p l).1.map asciiLower, (spanD p l).2.map asciiLower) := by
  induction l with
  | nil => rfl
  | cons c cs ih =>
    cases h : p c
    · rw [List.map_cons, spanD_cons_neg _ (by rw [hp]; exact h), spanD_cons_neg _ h]
      rfl
    · rw [List.map_cons, spanD_cons_pos _ (by rw [hp]; exact h), spanD_cons_pos _ h, ih]
      rfl

theorem dropD_map_lower (p : Char → Bool) (hp : ∀ c, p (asciiLower c) = p c) (l : List Char) :
    dropD p (l.map asciiLower) = (dropD p l).map asciiLower := by
  induction l with
  | nil => rfl
  | cons c cs ih =>
    cases h : p c
    · rw [List.map_cons, dropD_cons_neg _ (by rw [hp]; exact h), dropD_cons_neg _ h]
      rfl
    · rw [List.map_cons, dropD_cons_pos _ (by rw [hp]; exact h), dropD_cons_pos _ h, ih]

theorem trimSpace_map_lower (l : List Char) :
    trimSpace (l.map asciiLower) = (trimSpace l).map asciiLower := by
  unfold trimSpace
  rw [dropD_map_lower isSpaceGo isSpaceGo_asciiLower, ← List.map_reverse,
    dropD_map_lower isSpaceGo isSpaceGo_asciiLower, ← List.map_reverse]

theorem fracSplit_map_lower (rest : List Char) :
    fracSplit (rest.map asciiLower) =
      ((fracSplit rest).1.map asciiLower, (fracSplit rest).2.map asciiLower) := by
  cases rest with
  | nil => rfl
  | cons c r =>
    rw [List.map_cons]
    by_cases hdot : c = '.'
    · subst hdot
      rw [show asciiLower '.' = '.' from rfl, fracSplit_dot, fracSplit_dot,
        spanD_map_lower isDigit isDigit_asciiLower, isEmpty_map]
      by_cases hsf : (spanD isDigit r).1.isEmpty
      · rw [if_pos hsf, if_pos hsf]
        rfl
      · rw [if_neg hsf, if_neg hsf]
    · have hdot2 : ¬ asciiLower c = '.' := fun hc => hdot (asciiLower_dot.mp hc)
      rw [fracSplit_not_dot _ hdot2, fracSplit_not_dot _ hdot]
      rfl

theorem parseRegexMatch_map_lower (l : List Char) :
    parseRegexMatch (l.map asciiLower) =
      (parseRegexMatch l).map
        (fun t => (t.1.map asciiLower, t.2.1.map asciiLower, t.2.2.map asciiLower)) := by
  unfold parseRegexMatch
  rw [spanD_map_lower isDigit isDigit_asciiLower, isEmpty_map]
  by_cases h1 : (spanD isDigit l).1.isEmpty
  · rw [if_pos h1, if_pos h1]
    rfl
  · rw [if_neg h1, if_neg h1]
    rw [show ((spanD isDigit l).1.map asciiLower, (spanD isDigit l).2.map asciiLower).2 =
      (spanD isDigit l).2.map asciiLower from rfl]
    rw [fracSplit_map_lower, dropD_map_lower isSpaceRe isSpaceRe_asciiLower,
      spanD_map_lower isAlpha isAlpha_asciiLower, isEmpty_map]
    by_cases h2 : (spanD isAlpha (dropD isSpaceRe (fracSplit (spanD isDigit l).2).2)).2.isEmpty
    · rw [if_pos h2, if_pos h2]
      rfl
    · rw [if_neg h2, if_neg h2]
      rfl

theorem map_asciiLower_of_digits {l : List Char} (h : ∀ c ∈ l, isDigit c = true) :
    l.map asciiLower = l := by
  have h2 : l.map asciiLower = l.map id :=
    List.map_congr_left (fun c hc => asciiLower_of_isDigit (h c hc))
  rw [h2, List.map_id]

theorem map_lower_idem (u : List Char) :
    (u.map asciiLower).map asciiLower = u.map asciiLower := by
  rw [List.map_map]
  exact List.map_congr_left (fun c _ => asciiLower_idem c)

/-! ## Lemmas: the parse pipeline -/

theorem decValue_nonneg (d1 d2 : List Char) : 0 ≤ decValue d1 d2 := by
  unfold decValue
  apply div_nonneg _ (le_of_lt (pow10_pos _))
  have h1 : (0 : ℚ) ≤ (natOfDigits d1 : ℚ) := Nat.cast_nonneg _
  have h2 : (0 : ℚ) ≤ (natOfDigits d2 : ℚ) := Nat.cast_nonneg _
  have h3 : (0 : ℚ) ≤ pow10 d2.length := le_of_lt (pow10_pos _)
  positivity

theorem parseFloatVal_some {q x : ℚ} (h : parseFloatVal q = some x) : x = roundCore q := by
  unfold parseFloatVal at h
  by_cases h1 : pow2 1024 ≤ roundCore q
  · rw [if_pos h1] at h
    exact absurd h (by simp)
  · rw [if_neg h1] at h
    by_cases h2 : q ≠ 0 ∧ roundCore q = 0
    · rw [if_pos h2] at h
      exact absurd h (by simp)
    · rw [if_neg h2] at h
      exact (Option.some.inj h).symm

theorem parseFloatVal_eq_some {q : ℚ} (h1 : ¬ pow2 1024 ≤ roundCore q)
    (h2 : ¬ (q ≠ 0 ∧ roundCore q = 0)) : parseFloatVal q = some (roundCore q) := by
  unfold parseFloatVal
  rw [if_neg h1, if_neg h2]

theorem parseMatched_number_nonneg {d1 d2 : List Char} {x : ℚ}
    (h : parseFloatVal (decValue d1 d2) = some x) : 0 ≤ x := by
  rw [parseFloatVal_some h]
  exact roundCore_nonneg (decValue_nonneg d1 d2)

theorem parseSizeL_eq_parseMatched {l d1 d2 u : List Char}
    (hne : (trimSpace l).isEmpty = false)
    (hm : parseRegexMatch (trimSpace l) = some (d1, d2, u)) :
    parseSizeL l = parseMatched d1 d2 u := by
  unfold parseSizeL
  rw [hne, hm]
  rfl

theorem parseMatched_some {d1 d2 u : List Char} {x : ℚ}
    (h : parseFloatVal (decValue d1 d2) = some x) :
    parseMatched d1 d2 u =
      (if x < 0 then .error .negativeSize
       else if (u.map asciiLower).isEmpty then .ok (int64OfFloat x)
       else
         match lookupUnit (u.map asciiLower) with
         | none => .error .unknownUnit
         | some multiplier =>
           if maxInt64F < roundCore (x * (multiplier : ℚ)) then .error .overflow
           else .ok (int64OfFloat (roundCore (x * (multiplier : ℚ))))) := by
  unfold parseMatched
  rw [h]

theorem parseMatched_none {d1 d2 u : List Char}
    (h : parseFloatVal (decValue d1 d2) = none) :
    parseMatched d1 d2 u = .error .invalidNumber := by
  unfold parseMatched
  rw [h]

theorem parseMatched_no_unit {d1 d2 : List Char} {x : ℚ}
    (h : parseFloatVal (decValue d1 d2) = some x) :
    parseMatched d1 d2 [] = .ok (int64OfFloat x) := by
  rw [parseMatched_some h, if_neg (not_lt.mpr (parseMatched_number_nonneg h))]
  rfl

theorem parseMatched_with_unit {d1 d2 u : List Char} {x : ℚ} {mult : ℤ}
    (h : parseFloatVal (decValue d1 d2) = some x)
    (hune : u ≠ [])
    (hlook : lookupUnit (u.map asciiLower) = some mult) :
    parseMatched d1 d2 u =
      if maxInt64F < roundCore (x * (mult : ℚ)) then .error .overflow
      else .ok (int64OfFloat (roundCore (x * (mult : ℚ)))) := by
  rw [parseMatched_some h, if_neg (not_lt.mpr (parseMatched_number_nonneg h))]
  have hmape : (u.map asciiLower).isEmpty = false := by
    cases u with
    | nil => exact absurd rfl hune
    | cons c cs => rfl
  rw [hmape]
  simp only [Bool.false_eq_true, if_false]
  rw [hlook]

theorem parseMatched_ne_negativeSize (d1 d2 u : List Char) :
    parseMatched d1 d2 u ≠ .error .negativeSize := by
  cases hpf : parseFloatVal (decValue d1 d2) with
  | none => rw [parseMatched_none hpf]; simp
  | some x =>
    rw [parseMatched_some hpf, if_neg (not_lt.mpr (parseMatched_number_nonneg hpf))]
    by_cases he : (u.map asciiLower).isEmpty
    · rw [if_pos he]
      simp
    · rw [if_neg he]
      cases lookupUnit (u.map asciiLower) with
      | none => simp
      | some mult =>
        by_cases hov : maxInt64F < roundCore (x * (mult : ℚ))
        · simp only [hov, if_true]
          simp
        · simp only [hov, if_false]
          simp

theorem lookup_mem {l : List (String × ℤ)} {a : String} {b : ℤ}
    (h : List.lookup a l = some b) : b ∈ l.map Prod.snd := by
  induction l with
  | nil => simp [List.lookup] at h
  | cons p ps ih =>
    rw [List.lookup] at h
    split at h
    · simp only [Option.some.injEq] at h
      simp [← h]
    · simp [ih h]

theorem lookupUnit_bounds {u : List Char} {m : ℤ} (h : lookupUnit u = some m) :
    1 ≤ m ∧ m ≤ 2 ^ 50 := by
  have hm := lookup_mem h
  have hvals : m = 1 ∨ m = 1024 ∨ m = 1024 ^ 2 ∨ m = 1024 ^ 3 ∨ m = 1024 ^ 4 ∨
      m = 1024 ^ 5 ∨ m = 1000 ∨ m = 1000 ^ 2 ∨ m = 1000 ^ 3 ∨ m = 1000 ^ 4 ∨
      m = 1000 ^ 5 := by
    simp only [unitMap, Byte, KiB, MiB, GiB, TiB, PiB, KB, MB, GB, TB, PB,
      List.map_cons, List.map_nil, List.mem_cons, List.not_mem_nil, or_false] at hm
    rcases hm with h | h | h | h | h | h | h | h | h | h | h | h | h | h | h | h | h | h <;>
      norm_num [h]
  rcases hvals with h | h | h | h | h | h | h | h | h | h | h <;> subst h <;> norm_num

/-! ## Lemmas: truncation and conversion -/

theorem maxInt64F_eq : maxInt64F = pow2 63 := by
  have h1 : maxInt64F = ((2 ^ 63 : ℕ) : ℚ) := by decide
  rw [h1, ← pow2_natCast]
  norm_num

theorem ratTrunc_of_nonneg {q : ℚ} (h : 0 ≤ q) : ratTrunc q = ⌊q⌋ := by
  unfold ratTrunc
  rw [if_neg (not_lt.mpr h)]

theorem pow2_63 : pow2 63 = ((2 ^ 63 : ℕ) : ℚ) := by decide

theorem int64OfFloat_of_range {q : ℚ} (h1 : 0 ≤ q) (h2 : q < pow2 63) :
    int64OfFloat q = ⌊q⌋ := by
  have hf0 : 0 ≤ ⌊q⌋ := Int.floor_nonneg.mpr h1
  have hf1 : ⌊q⌋ < 2 ^ 63 := by
    rw [Int.floor_lt]
    have h3 : q < ((2 ^ 63 : ℕ) : ℚ) := by rw [← pow2_63]; exact h2
    exact_mod_cast h3
  unfold int64OfFloat
  rw [ratTrunc_of_nonneg h1, if_neg (by omega)]

theorem int64OfFloat_natCast {n : ℕ} (h : n < 2 ^ 63) : int64OfFloat ((n : ℕ) : ℚ) = (n : ℤ) := by
  rw [int64OfFloat_of_range (Nat.cast_nonneg n) (by rw [pow2_63]; exact_mod_cast h)]
  exact_mod_cast Int.floor_natCast n

/-! ## Lemmas: the formatter -/

theorem KiB_eq : KiB = 2 ^ 10 := by decide
theorem MiB_eq : MiB = 2 ^ 20 := by decide
theorem GiB_eq : GiB = 2 ^ 30 := by decide
theorem TiB_eq : TiB = 2 ^ 40 := by decide
theorem PiB_eq : PiB = 2 ^ 50 := by decide

theorem formatSizeL_neg {b : ℤ} (h : b < 0) : formatSizeL b = ['0', ' ', 'B'] := by
  unfold formatSizeL
  rw [if_pos h]

theorem formatSizeL_small {b : ℤ} (h1 : 0 ≤ b) (h2 : b < 1024) :
    formatSizeL b = (natNumeral b.toNat).append [' ', 'B'] := by
  unfold formatSizeL
  rw [if_neg (not_lt.mpr h1), if_pos (show b < KiB from by rw [KiB_eq]; omega)]

theorem formatSizeL_unit_cases {b : ℤ} (h : 1024 ≤ b) :
    (2 ^ 50 ≤ b ∧ formatSizeL b = renderUnit b ['P', 'i', 'B'] PiB) ∨
    (2 ^ 40 ≤ b ∧ b < 2 ^ 50 ∧ formatSizeL b = renderUnit b ['T', 'i', 'B'] TiB) ∨
    (2 ^ 30 ≤ b ∧ b < 2 ^ 40 ∧ formatSizeL b = renderUnit b ['G', 'i', 'B'] GiB) ∨
    (2 ^ 20 ≤ b ∧ b < 2 ^ 30 ∧ formatSizeL b = renderUnit b ['M', 'i', 'B'] MiB) ∨
    (2 ^ 10 ≤ b ∧ b < 2 ^ 20 ∧ formatSizeL b = renderUnit b ['K', 'i', 'B'] KiB) := by
  have hb0 : ¬ b < 0 := by omega
  have hbK : ¬ b < KiB := by rw [KiB_eq]; omega
  have hunf : formatSizeL b = formatLoop b unitsDesc := by
    unfold formatSizeL
    rw [if_neg hb0, if_neg hbK]
  rw [hunf]
  simp only [unitsDesc, formatLoop]
  by_cases h50 : PiB ≤ b
  · left
    rw [if_pos h50]
    rw [PiB_eq] at h50
    exact ⟨h50, rfl⟩
  · right
    rw [if_neg h50]
    rw [PiB_eq] at h50
    by_cases h40 : TiB ≤ b
    · left
      rw [if_pos h40]
      rw [TiB_eq] at h40
      exact ⟨h40, by omega, rfl⟩
    · right
      rw [if_neg h40]
      rw [TiB_eq] at h40
      by_cases h30 : GiB ≤ b
      · left
        rw [if_pos h30]
        rw [GiB_eq] at h30
        exact ⟨h30, by omega, rfl⟩
      · right
        rw [if_neg h30]
        rw [GiB_eq] at h30
        by_cases h20 : MiB ≤ b
        · left
          rw [if_pos h20]
          rw [MiB_eq] at h20
          exact ⟨h20, by omega, rfl⟩
        · right
          rw [if_neg h20]
          rw [MiB_eq] at h20
          have h10 : KiB ≤ b := by rw [KiB_eq]; omega
          rw [if_pos h10]
          rw [KiB_eq] at h10
          exact ⟨h10, by omega, rfl⟩

theorem fixedDigits_spec (v : ℚ) (prec : ℕ) :
    (∀ c ∈ fixedDigits v prec, isDigit c = true) ∧
    natOfDigits (fixedDigits v prec) = (rhe (v * pow10 prec)).toNat ∧
    prec + 1 ≤ (fixedDigits v prec).length := by
  unfold fixedDigits
  refine ⟨?_, ?_, ?_⟩
  · intro c hc
    rcases List.mem_append.mp hc with hc | hc
    · rw [List.eq_of_mem_replicate hc]
      rfl
    · exact natNumeral_digits _ c hc
  · exact (natOfDigits_replicate_zero _ _).trans (natOfDigits_natNumeral _)
  · rw [List.length_append, List.length_replicate]
    have hL : 1 ≤ (natNumeral (rhe (v * pow10 prec)).toNat).length :=
      List.length_pos.mpr (natNumeral_ne_nil _)
    omega

theorem fixedStr_spec (v : ℚ) (prec : ℕ) :
    ∃ a b : List Char, fixedStr v prec = a ++ (if b.isEmpty then [] else '.' :: b) ∧
      a ≠ [] ∧ (∀ c ∈ a, isDigit c = true) ∧ (∀ c ∈ b, isDigit c = true) ∧
      decValue a b = (((rhe (v * pow10 prec)).toNat : ℕ) : ℚ) / pow10 prec := by
  obtain ⟨hdig, hval, hlen⟩ := fixedDigits_spec v prec
  by_cases hp0 : prec = 0
  · subst hp0
    refine ⟨fixedDigits v 0, [], ?_, ?_, hdig, by simp, ?_⟩
    · unfold fixedStr
      rw [if_pos rfl]
      simp
    · intro hnil
      rw [hnil] at hlen
      simp at hlen
    · unfold decValue
      rw [hval]
      have hp1 : pow10 0 = 1 := by norm_num [pow10]
      simp [natOfDigits, hp1]
  · refine ⟨(fixedDigits v prec).take ((fixedDigits v prec).length - prec),
      (fixedDigits v prec).drop ((fixedDigits v prec).length - prec), ?_, ?_, ?_, ?_, ?_⟩
    · unfold fixedStr
      rw [if_neg hp0]
      have hdlen : ((fixedDigits v prec).drop ((fixedDigits v prec).length - prec)).length =
          prec := by
        rw [List.length_drop]
        omega
      have hbne : ((fixedDigits v prec).drop
          ((fixedDigits v prec).length - prec)).isEmpty = false := by
        apply isEmpty_false_of_ne_nil
        intro hnil
        rw [hnil] at hdlen
        simp at hdlen
        omega
      rw [hbne]
      simp only [Bool.false_eq_true, if_false, List.append_eq]
    · intro hnil
      have htk := congrArg List.length hnil
      rw [List.length_take] at htk
      simp at htk
      omega
    · intro c hc
      exact hdig c (List.take_subset _ _ hc)
    · intro c hc
      exact hdig c (List.drop_subset _ _ hc)
    · have hdlen : ((fixedDigits v prec).drop ((fixedDigits v prec).length - prec)).length =
          prec := by
        rw [List.length_drop]
        omega
      unfold decValue
      rw [hdlen]
      have hsplit : natOfDigits ((fixedDigits v prec).take ((fixedDigits v prec).length - prec)) *
            10 ^ prec +
            natOfDigits ((fixedDigits v prec).drop ((fixedDigits v prec).length - prec)) =
          (rhe (v * pow10 prec)).toNat := by
        rw [← hval]
        have happ := natOfDigits_append
          ((fixedDigits v prec).take ((fixedDigits v prec).length - prec))
          ((fixedDigits v prec).drop ((fixedDigits v prec).length - prec))
        rw [List.take_append_drop] at happ
        rw [happ, hdlen]
      rw [← hsplit]
      have hpow : pow10 prec = ((10 ^ prec : ℕ) : ℚ) := rfl
      rw [hpow]
      push_cast
      ring_nf

/-! ## Lemmas: the round trip parse (format b) succeeds -/

theorem head?_append_left {l1 l2 : List Char} (h : l1 ≠ []) : (l1 ++ l2).head? = l1.head? := by
  cases l1 with
  | nil => exact absurd rfl h
  | cons c cs => rfl

theorem append_ne_nil_left {l1 l2 : List Char} (h : l1 ≠ []) : l1 ++ l2 ≠ [] := by
  cases l1 with
  | nil => exact absurd rfl h
  | cons c cs => simp

theorem reverse_head_mem {l1 l2 : List Char} {c : Char} (h2 : l2 ≠ [])
    (h : (l1 ++ l2).reverse.head? = some c) : c ∈ l2 := by
  rw [List.reverse_append] at h
  rw [head?_append_left (by intro hr; exact h2 (List.reverse_eq_nil_iff.mp hr))] at h
  exact List.mem_reverse.mp (head?_mem h)

theorem fmtPrec_le_two (v : ℚ) : fmtPrec v ≤ 2 := by
  unfold fmtPrec
  split
  · omega
  · split
    · omega
    · omega

/-- Rounding a value that is at least one and at most 2 to the 53rd stays
at least one (the edge value 2 to the 53rd is itself representable). -/
theorem one_le_roundCorePos {q : ℚ} (h1 : 1 ≤ q) (h2 : q ≤ pow2 53) :
    1 ≤ roundCorePos q := by
  by_cases hlt : q < pow2 53
  · have hk := @pow2_le_roundCorePos q 0 (by rw [pow2_zero]; exact h1)
      (by rw [show (0 : ℤ) + 53 = 53 from by ring]; exact hlt) (by norm_num)
    rw [pow2_zero] at hk
    exact hk
  · have heq : q = pow2 53 := le_antisymm h2 (not_lt.mp hlt)
    have hself : roundCorePos q = q := @roundCorePos_eq_self q 1 53
      (by rw [heq]; push_cast; ring) (by norm_num) (by norm_num)
    rw [hself]
    exact h1

/-- Parsing the output of the unit branch of the formatter succeeds. -/
theorem parse_renderUnit {b mult : ℤ} {k : ℕ} {name : List Char}
    (hmult : mult = 2 ^ k) (hk10 : 10 ≤ k) (hk50 : k ≤ 50)
    (hb1 : mult ≤ b) (hb2 : b < 2 ^ 63)
    (hname : ∀ c ∈ name, isAlpha c = true) (hnn : name ≠ [])
    (hlook : lookupUnit (name.map asciiLower) = some mult) :
    ∃ n, parseSizeL (renderUnit b name mult) = .ok n := by
  have hbpos : (0 : ℤ) < b := by
    have hp : (0 : ℤ) < 2 ^ k := pow_pos (by norm_num) k
    omega
  have hbQpos : (0 : ℚ) < (b : ℚ) := by exact_mod_cast hbpos
  have hbQ2 : ((b : ℤ) : ℚ) < pow2 63 := by
    rw [pow2_63]
    exact_mod_cast hb2
  have hbQ1 : pow2 (k : ℤ) ≤ ((b : ℤ) : ℚ) := by
    rw [pow2_natCast]
    have hcast : ((2 ^ k : ℕ) : ℤ) ≤ b := by
      push_cast
      rw [← hmult]
      exact hb1
    exact_mod_cast hcast
  have hF := roundCore_of_nonneg (le_of_lt hbQpos)
  have hF_le : roundCore ((b : ℤ) : ℚ) ≤ pow2 63 := by
    rw [hF]
    exact roundCorePos_le_pow2 hbQpos (le_of_lt hbQ2) (by norm_num)
  have hF_ge : pow2 (k : ℤ) ≤ roundCore ((b : ℤ) : ℚ) := by
    rw [hF]
    apply pow2_le_roundCorePos hbQ1 _ (by omega)
    calc ((b : ℤ) : ℚ) < pow2 63 := hbQ2
    _ ≤ pow2 ((k : ℤ) + 53) := pow2_le_pow2 (by omega)
  have hmultQ : ((mult : ℤ) : ℚ) = ((2 ^ k : ℕ) : ℚ) := by
    rw [hmult]
    push_cast
    ring
  have hRmult : roundCore ((mult : ℤ) : ℚ) = pow2 (k : ℤ) := by
    rw [hmultQ, roundCore_natCast (by
      calc 2 ^ k ≤ 2 ^ 50 := Nat.pow_le_pow_right (by norm_num) hk50
      _ < 2 ^ 53 := by norm_num), pow2_natCast]
  have hq0pos : 0 < roundCore ((b : ℤ) : ℚ) / pow2 (k : ℤ) :=
    div_pos (lt_of_lt_of_le (pow2_pos _) hF_ge) (pow2_pos _)
  have hq0_ge : 1 ≤ roundCore ((b : ℤ) : ℚ) / pow2 (k : ℤ) :=
    (one_le_div (pow2_pos _)).mpr hF_ge
  have hq0_le : roundCore ((b : ℤ) : ℚ) / pow2 (k : ℤ) ≤ pow2 (63 - (k : ℤ)) := by
    rw [pow2_sub, div_le_div_iff (pow2_pos _) (pow2_pos _)]
    exact mul_le_mul_of_nonneg_right hF_le (le_of_lt (pow2_pos _))
  have hjk : 63 - (k : ℤ) ≤ 53 := by omega
  have hq0_le53 : roundCore ((b : ℤ) : ℚ) / pow2 (k : ℤ) ≤ pow2 53 :=
    le_trans hq0_le (pow2_le_pow2 hjk)
  have hvalue : fmtValue b mult =
      roundCore (roundCore ((b : ℤ) : ℚ) / pow2 (k : ℤ)) := by
    unfold fmtValue
    rw [hRmult]
  have hv_of := roundCore_of_nonneg (le_of_lt hq0pos)
  have hv_ge : 1 ≤ fmtValue b mult := by
    rw [hvalue, hv_of]
    exact one_le_roundCorePos hq0_ge hq0_le53
  have hv_le : fmtValue b mult ≤ pow2 (63 - (k : ℤ)) := by
    rw [hvalue, hv_of]
    exact roundCorePos_le_pow2 hq0pos hq0_le (by omega)
  have hp2 : fmtPrec (fmtValue b mult) ≤ 2 := fmtPrec_le_two _
  have hpow10_nonneg : (0 : ℚ) ≤ pow10 (fmtPrec (fmtValue b mult)) :=
    le_of_lt (pow10_pos _)
  have hrhe_ge : ((10 ^ fmtPrec (fmtValue b mult) : ℕ) : ℤ) ≤
      rhe (fmtValue b mult * pow10 (fmtPrec (fmtValue b mult))) := by
    apply rhe_ge
    have hc : (((10 ^ fmtPrec (fmtValue b mult) : ℕ) : ℤ) : ℚ) =
        pow10 (fmtPrec (fmtValue b mult)) := by
      unfold pow10
      push_cast
      ring
    rw [hc]
    calc pow10 (fmtPrec (fmtValue b mult)) = 1 * pow10 (fmtPrec (fmtValue b mult)) :=
      (one_mul _).symm
    _ ≤ fmtValue b mult * pow10 (fmtPrec (fmtValue b mult)) :=
      mul_le_mul_of_nonneg_right hv_ge hpow10_nonneg
  have hrhe_le : rhe (fmtValue b mult * pow10 (fmtPrec (fmtValue b mult))) ≤
      ((2 ^ (63 - (k : ℤ)).toNat * 10 ^ fmtPrec (fmtValue b mult) : ℕ) : ℤ) := by
    apply rhe_le
    have hc : ((((2 ^ (63 - (k : ℤ)).toNat * 10 ^ fmtPrec (fmtValue b mult) : ℕ)) : ℤ) : ℚ) =
        pow2 (63 - (k : ℤ)) * pow10 (fmtPrec (fmtValue b mult)) := by
      rw [pow2_int_of_nonneg (by omega)]
      unfold pow10
      push_cast
      ring
    rw [hc]
    exact mul_le_mul_of_nonneg_right hv_le hpow10_nonneg
  obtain ⟨ip, fp, hshape, hipne, hipd, hfpd, hdv⟩ :=
    fixedStr_spec (fmtValue b mult) (fmtPrec (fmtValue b mult))
  have hn_pos : (0 : ℤ) < rhe (fmtValue b mult * pow10 (fmtPrec (fmtValue b mult))) := by
    have h10 : (1 : ℤ) ≤ ((10 ^ fmtPrec (fmtValue b mult) : ℕ) : ℤ) := by
      have h11 := Nat.one_le_pow (fmtPrec (fmtValue b mult)) 10 (by norm_num)
      exact_mod_cast h11
    omega
  have htoNat : (((rhe (fmtValue b mult * pow10 (fmtPrec (fmtValue b mult)))).toNat : ℕ) : ℤ) =
      rhe (fmtValue b mult * pow10 (fmtPrec (fmtValue b mult))) :=
    Int.toNat_of_nonneg (le_of_lt hn_pos)
  have hQge : ((10 ^ fmtPrec (fmtValue b mult) : ℕ) : ℚ) ≤
      (((rhe (fmtValue b mult * pow10 (fmtPrec (fmtValue b mult)))).toNat : ℕ) : ℚ) := by
    have hZ : ((10 ^ fmtPrec (fmtValue b mult) : ℕ) : ℤ) ≤
        (((rhe (fmtValue b mult * pow10 (fmtPrec (fmtValue b mult)))).toNat : ℕ) : ℤ) := by
      rw [htoNat]
      exact hrhe_ge
    exact_mod_cast hZ
  have hQle : (((rhe (fmtValue b mult * pow10 (fmtPrec (fmtValue b mult)))).toNat : ℕ) : ℚ) ≤
      ((2 ^ (63 - (k : ℤ)).toNat * 10 ^ fmtPrec (fmtValue b mult) : ℕ) : ℚ) := by
    have hZ : (((rhe (fmtValue b mult * pow10 (fmtPrec (fmtValue b mult)))).toNat : ℕ) : ℤ) ≤
        ((2 ^ (63 - (k : ℤ)).toNat * 10 ^ fmtPrec (fmtValue b mult) : ℕ) : ℤ) := by
      rw [htoNat]
      exact hrhe_le
    exact_mod_cast hZ
  have hdv_ge : 1 ≤ decValue ip fp := by
    rw [hdv, le_div_iff (pow10_pos _), one_mul]
    exact le_trans (le_of_eq rfl) hQge
  have hdv_le : decValue ip fp ≤ pow2 (63 - (k : ℤ)) := by
    rw [hdv, div_le_iff (pow10_pos _)]
    have hc : ((2 ^ (63 - (k : ℤ)).toNat * 10 ^ fmtPrec (fmtValue b mult) : ℕ) : ℚ) =
        pow2 (63 - (k : ℤ)) * pow10 (fmtPrec (fmtValue b mult)) := by
      rw [pow2_int_of_nonneg (by omega)]
      unfold pow10
      push_cast
      ring
    rw [← hc]
    exact hQle
  have hdv_pos : 0 < decValue ip fp := lt_of_lt_of_le one_pos hdv_ge
  have hdv_le53 : decValue ip fp ≤ pow2 53 := le_trans hdv_le (pow2_le_pow2 hjk)
  have hnum_of := roundCore_of_nonneg (le_of_lt hdv_pos)
  have hnum_ge : 1 ≤ roundCore (decValue ip fp) := by
    rw [hnum_of]
    exact one_le_roundCorePos hdv_ge hdv_le53
  have hnum_le : roundCore (decValue ip fp) ≤ pow2 (63 - (k : ℤ)) := by
    rw [hnum_of]
    exact roundCorePos_le_pow2 hdv_pos hdv_le (by omega)
  have hpf : parseFloatVal (decValue ip fp) = some (roundCore (decValue ip fp)) := by
    apply parseFloatVal_eq_some
    · intro hc
      have hb53 : roundCore (decValue ip fp) ≤ pow2 53 := le_trans hnum_le (pow2_le_pow2 hjk)
      have hlt1024 : pow2 53 < pow2 1024 := pow2_lt_pow2 (by norm_num)
      exact absurd hc (not_le.mpr (lt_of_le_of_lt hb53 hlt1024))
    · intro hc
      have h0 : (0 : ℚ) < roundCore (decValue ip fp) := lt_of_lt_of_le one_pos hnum_ge
      rw [hc.2] at h0
      exact lt_irrefl 0 h0
  have hprod_pos : 0 < roundCore (decValue ip fp) * ((mult : ℤ) : ℚ) := by
    rw [hmultQ, ← pow2_natCast]
    exact mul_pos (lt_of_lt_of_le one_pos hnum_ge) (pow2_pos _)
  have hprod_le : roundCore (decValue ip fp) * ((mult : ℤ) : ℚ) ≤ pow2 63 := by
    rw [hmultQ, ← pow2_natCast]
    calc roundCore (decValue ip fp) * pow2 (k : ℤ)
        ≤ pow2 (63 - (k : ℤ)) * pow2 (k : ℤ) :=
          mul_le_mul_of_nonneg_right hnum_le (le_of_lt (pow2_pos _))
    _ = pow2 63 := by rw [pow2_mul_pow2]; congr 1; ring
  have hoverflow : ¬ maxInt64F < roundCore (roundCore (decValue ip fp) * ((mult : ℤ) : ℚ)) := by
    rw [maxInt64F_eq]
    apply not_lt.mpr
    rw [roundCore_of_nonneg (le_of_lt hprod_pos)]
    exact roundCorePos_le_pow2 hprod_pos hprod_le (by norm_num)
  have hrender : renderUnit b name mult =
      ip ++ (if fp.isEmpty then [] else '.' :: fp) ++ [' '] ++ name := by
    unfold renderUnit
    rw [hshape]
    simp only [List.append_eq, List.append_assoc, List.cons_append, List.nil_append,
      List.singleton_append]
  have hmatch : parseRegexMatch (ip ++ (if fp.isEmpty then [] else '.' :: fp) ++ [' '] ++ name) =
      some (ip, fp, name) :=
    parseRegexMatch_exact ip fp [' '] name hipne hipd hfpd
      (by intro c hc; rw [List.mem_singleton.mp hc]; rfl) hname
  have hLne : ip ++ (if fp.isEmpty then [] else '.' :: fp) ++ [' '] ++ name ≠ [] := by
    rw [List.append_assoc, List.append_assoc]
    exact append_ne_nil_left hipne
  have htrim : trimSpace (ip ++ (if fp.isEmpty then [] else '.' :: fp) ++ [' '] ++ name) =
      ip ++ (if fp.isEmpty then [] else '.' :: fp) ++ [' '] ++ name := by
    apply trimSpace_of_heads
    · intro c hc
      rw [List.append_assoc, List.append_assoc, head?_append_left hipne] at hc
      exact not_isSpaceGo_of_isDigit (hipd c (head?_mem hc))
    · intro c hc
      exact not_isSpaceGo_of_isAlpha (hname c (reverse_head_mem hnn hc))
  refine ⟨int64OfFloat (roundCore (roundCore (decValue ip fp) * ((mult : ℤ) : ℚ))), ?_⟩
  rw [hrender]
  rw [parseSizeL_eq_parseMatched (by rw [htrim]; exact isEmpty_false_of_ne_nil hLne)
    (by rw [htrim]; exact hmatch)]
  rw [parseMatched_with_unit hpf hnn hlook]
  rw [if_neg hoverflow]

/-! ## The claims -/

/-- C1: the spec contract says a successful ParseSize returns a
non-negative byte count. The unit-less return on line 109 of filesize.go
has no overflow check: on "10000000000000000000" (ten to the 19th, above
2^63 - 1) strconv.ParseFloat succeeds exactly, the negativity check
passes, and the conversion int64(number) is out of range, which on
gc/amd64 produces the minimum int64. ParseSize succeeds and returns a
negative count, contradicting the claim: the code is the bug. -/
theorem C1_success_returns_negative :
    ParseSize "10000000000000000000" = .ok (-(2 ^ 63)) ∧ (-(2 ^ 63) : ℤ) < 0 :=
  ⟨by decide, by decide⟩

/-- C2 counterexample: ParseSize "-1" and ParseSize "-1k" fail with
InvalidFormat (line 89), not with a NegativeSize error (line 104): the
anchored pattern admits no minus sign. -/
theorem C2_counterexample :
    ParseSize "-1" = .error .invalidFormat ∧ ParseSize "-1k" = .error .invalidFormat ∧
      SizeError.invalidFormat ≠ SizeError.negativeSize :=
  ⟨by decide, by decide, by decide⟩

/-- C2 (amended): negative inputs do fail, but with InvalidFormat rather
than NegativeSize: any input whose trimmed form starts with a minus sign
fails the anchored regex, and in particular ParseSize "-1" and
ParseSize "-1k" both return InvalidFormat. -/
theorem C2_negative_rejected_as_invalidFormat :
    (∀ l : List Char, (trimSpace l).head? = some '-' →
      parseSizeL l = .error .invalidFormat) ∧
    ParseSize "-1" = .error .invalidFormat ∧ ParseSize "-1k" = .error .invalidFormat := by
  refine ⟨?_, by decide, by decide⟩
  intro l hl
  obtain ⟨rest, hrest⟩ : ∃ rest, trimSpace l = '-' :: rest := by
    cases htl : trimSpace l with
    | nil => rw [htl] at hl; simp at hl
    | cons c cs =>
      rw [htl] at hl
      simp only [List.head?_cons, Option.some.injEq] at hl
      exact ⟨cs, by rw [hl]⟩
  have hmatch : parseRegexMatch ('-' :: rest) = none := by
    unfold parseRegexMatch
    rw [spanD_cons_neg rest (by decide)]
    rfl
  unfold parseSizeL
  rw [hrest, if_neg (by simp : ¬ (('-' :: rest).isEmpty = true)), hmatch]

theorem C2_witness : parseSizeL ['-', '1'] = .error .invalidFormat :=
  C2_negative_rejected_as_invalidFormat.1 ['-', '1'] (by decide)

/-- C3 counterexample: on "8192p" the numeric value is 8192 and the unit
multiplier is 2^50, so the float64 product is exactly 2^63, which exceeds
the maximum int64 2^63 - 1; the claim demands an Overflow failure, but
the check on line 122 compares against float64(maxInt64) = 2^63 strictly,
so the product passes and the conversion wraps (gc/amd64) to the minimum
int64, returned with no error. -/
theorem C3_counterexample :
    parseFloatVal (decValue ['8', '1', '9', '2'] []) = some 8192 ∧
    lookupUnit (['p'].map asciiLower) = some (2 ^ 50) ∧
    roundCore ((8192 : ℚ) * ((2 ^ 50 : ℤ) : ℚ)) = ((2 ^ 63 : ℕ) : ℚ) ∧
    ((2 ^ 63 : ℕ) : ℚ) - 1 < ((2 ^ 63 : ℕ) : ℚ) ∧
    ParseSize "8192p" ≠ .error .overflow ∧
    ParseSize "8192p" = .ok (-(2 ^ 63)) :=
  ⟨by decide, by decide, by decide, by decide, by decide, by decide⟩

/-- C3 (amended): for an input matching the grammar whose unit is in the
table, ParseSize fails with Overflow exactly when the float64 product of
the parsed number and the multiplier strictly exceeds
float64(maxInt64) = 2^63 (not 2^63 - 1 as claimed); whenever the product
is strictly below 2^63 the call returns the product truncated toward
zero. At a product of exactly 2^63 there is no Overflow error and the
conversion is out of int64 range. -/
theorem C3_overflow_boundary {l d1 d2 u : List Char} {mult : ℤ} {number : ℚ}
    (hne : (trimSpace l).isEmpty = false)
    (hm : parseRegexMatch (trimSpace l) = some (d1, d2, u))
    (hune : u ≠ [])
    (hlook : lookupUnit (u.map asciiLower) = some mult)
    (hpf : parseFloatVal (decValue d1 d2) = some number) :
    (parseSizeL l = .error .overflow ↔ pow2 63 < roundCore (number * (mult : ℚ))) ∧
    (roundCore (number * (mult : ℚ)) < pow2 63 →
      parseSizeL l = .ok (ratTrunc (roundCore (number * (mult : ℚ))))) := by
  have hnum0 : 0 ≤ number := parseMatched_number_nonneg hpf
  have hmult1 : 1 ≤ mult := (lookupUnit_bounds hlook).1
  have hprod0 : 0 ≤ roundCore (number * (mult : ℚ)) := by
    apply roundCore_nonneg
    apply mul_nonneg hnum0
    have h0 : (0 : ℤ) ≤ mult := by omega
    exact_mod_cast h0
  rw [parseSizeL_eq_parseMatched hne hm, parseMatched_with_unit hpf hune hlook, maxInt64F_eq]
  constructor
  · constructor
    · intro hov
      by_contra hc
      rw [if_neg hc] at hov
      exact absurd hov (by simp)
    · intro hlt
      rw [if_pos hlt]
  · intro hlt
    rw [if_neg (not_lt.mpr (le_of_lt hlt))]
    rw [int64OfFloat_of_range hprod0 hlt, ratTrunc_of_nonneg hprod0]

theorem C3_witness :
    parseSizeL ("16p".data) = .ok (ratTrunc (roundCore ((16 : ℚ) * ((2 ^ 50 : ℤ) : ℚ)))) :=
  (@C3_overflow_boundary ("16p".data) ['1', '6'] [] ['p'] (2 ^ 50) 16
    (by decide) (by decide) (by decide) (by decide) (by decide)).2 (by decide)

/-- C4: lower-casing the input never changes the result of ParseSize
(unit lookup is case-insensitive), and the unit table gives
4k = 4KiB = 4kib = 4096 and 4KB = 4000, while surrounding whitespace and
whitespace between number and unit are ignored. -/
theorem C4_case_insensitive_and_whitespace :
    (∀ s : String, ParseSize (String.mk (s.data.map asciiLower)) = ParseSize s) ∧
    ParseSize "4k" = .ok 4096 ∧ ParseSize "4KiB" = .ok 4096 ∧
    ParseSize "4kib" = .ok 4096 ∧ ParseSize "4KB" = .ok 4000 ∧
    ParseSize " 1k " = .ok 1024 ∧ ParseSize "1 k" = .ok 1024 ∧
    ParseSize " 1 KiB " = .ok 1024 := by
  refine ⟨?_, by decide, by decide, by decide, by decide, by decide, by decide, by decide⟩
  intro s
  show parseSizeL (s.data.map asciiLower) = parseSizeL s.data
  unfold parseSizeL
  rw [trimSpace_map_lower, isEmpty_map, parseRegexMatch_map_lower]
  by_cases he : (trimSpace s.data).isEmpty
  · rw [if_pos he, if_pos he]
  · rw [if_neg he, if_neg he]
    cases hm : parseRegexMatch (trimSpace s.data) with
    | none => rfl
    | some t =>
      obtain ⟨d1, d2, u⟩ := t
      obtain ⟨hne, hd1, hd2, hu⟩ := parseRegexMatch_sound hm
      show parseMatched (d1.map asciiLower) (d2.map asciiLower) (u.map asciiLower) =
        parseMatched d1 d2 u
      rw [map_asciiLower_of_digits hd1, map_asciiLower_of_digits hd2]
      unfold parseMatched
      rw [map_lower_idem]

/-- C6: parsing the exact decimal numeral of any natural number below
2^53 returns that number: the numeral matches the grammar with an empty
unit, its value is exactly representable in float64, and the unit-less
truncation is the identity on it. -/
theorem C6_numeral_roundtrip :
    (∀ n : ℕ, n < 2 ^ 53 → ParseSize (String.mk (natNumeral n)) = .ok (n : ℤ)) ∧
    String.mk (natNumeral 0) = "0" ∧ String.mk (natNumeral 1024) = "1024" ∧
    String.mk (natNumeral 9007199254740991) = "9007199254740991" := by
  refine ⟨?_, by decide, by decide, by decide⟩
  intro n h
  have hdig := natNumeral_digits n
  have hne := natNumeral_ne_nil n
  have htrim : trimSpace (natNumeral n) = natNumeral n := by
    apply trimSpace_of_heads
    · intro c hc
      exact not_isSpaceGo_of_isDigit (hdig c (head?_mem hc))
    · intro c hc
      exact not_isSpaceGo_of_isDigit (hdig c (List.mem_reverse.mp (head?_mem hc)))
  have hmatch : parseRegexMatch (natNumeral n) = some (natNumeral n, [], []) := by
    have he := parseRegexMatch_exact (natNumeral n) [] [] [] hne hdig
      (by intro c hc; simp at hc) (by intro c hc; simp at hc) (by intro c hc; simp at hc)
    simpa using he
  have hval : decValue (natNumeral n) [] = ((n : ℕ) : ℚ) := by
    unfold decValue
    rw [natOfDigits_natNumeral]
    simp [natOfDigits, pow10]
  have hround : roundCore (decValue (natNumeral n) []) = ((n : ℕ) : ℚ) := by
    rw [hval]
    exact roundCore_natCast h
  have hpf : parseFloatVal (decValue (natNumeral n) []) = some ((n : ℕ) : ℚ) := by
    rw [← hround]
    apply parseFloatVal_eq_some
    · rw [hround]
      intro hc
      have hlt : ((n : ℕ) : ℚ) < pow2 1024 := by
        have h53 : ((n : ℕ) : ℚ) < ((2 ^ 53 : ℕ) : ℚ) := by exact_mod_cast h
        have hbig : ((2 ^ 53 : ℕ) : ℚ) < pow2 1024 := by decide
        exact lt_trans h53 hbig
      exact absurd hc (not_le.mpr hlt)
    · intro hc
      apply hc.1
      have h0 : ((n : ℕ) : ℚ) = 0 := by rw [← hround, hc.2]
      rw [hval, h0]
  show parseSizeL (natNumeral n) = .ok (n : ℤ)
  unfold parseSizeL
  rw [htrim, if_neg (by rw [isEmpty_false_of_ne_nil hne]; simp), hmatch]
  show parseMatched (natNumeral n) [] [] = .ok (n : ℤ)
  rw [parseMatched_no_unit hpf]
  rw [int64OfFloat_natCast (lt_trans h (by norm_num))]

theorem C6_witness : ParseSize (String.mk (natNumeral 1024)) = .ok 1024 :=
  C6_numeral_roundtrip.1 1024 (by norm_num)

/-- C7: ValidateSize returns no error exactly when ParseSize succeeds;
it is the parse with the value discarded. -/
theorem C7_validate_iff_parse (s : String) :
    ValidateSize s = none ↔ ∃ n, ParseSize s = .ok n := by
  unfold ValidateSize
  cases h : ParseSize s with
  | ok n =>
    constructor
    · intro _
      exact ⟨n, rfl⟩
    · intro _
      rfl
  | error e =>
    simp [h]

/-- C8: malformed inputs are classified: unknown units (1ZiB, 1XB) give
UnknownUnit; the empty string and any all-whitespace input give
EmptyInput; inputs not matching the numeral-unit shape (abc, k1) give
InvalidFormat. -/
theorem C8_error_classification :
    ParseSize "1ZiB" = .error .unknownUnit ∧ ParseSize "1XB" = .error .unknownUnit ∧
    ParseSize "" = .error .emptyInput ∧
    (∀ l : List Char, (∀ c ∈ l, isSpaceGo c = true) → parseSizeL l = .error .emptyInput) ∧
    ParseSize "abc" = .error .invalidFormat ∧ ParseSize "k1" = .error .invalidFormat := by
  refine ⟨by decide, by decide, by decide, ?_, by decide, by decide⟩
  intro l hl
  unfold parseSizeL
  rw [trimSpace_all_space l hl]
  rfl

theorem C8_witness : parseSizeL [' '] = .error .emptyInput :=
  C8_error_classification.2.2.2.1 [' '] (by decide)

/-- C9: ParseSize never returns the NegativeSize error: the anchored
pattern only admits numerals beginning with a digit, so the parsed float
is nonnegative and the negativity branch on line 104 is unreachable. -/
theorem C9_negativeSize_unreachable (s : String) :
    ParseSize s ≠ .error .negativeSize := by
  unfold ParseSize parseSizeL
  by_cases he : (trimSpace s.data).isEmpty
  · rw [if_pos he]
    simp
  · rw [if_neg he]
    cases hm : parseRegexMatch (trimSpace s.data) with
    | none => simp
    | some t =>
      obtain ⟨d1, d2, u⟩ := t
      exact parseMatched_ne_negativeSize d1 d2 u

theorem C9_witness : ParseSize "1k" ≠ .error .negativeSize :=
  C9_negativeSize_unreachable "1k"

/-- C5: FormatSize never fails and follows the clamping, byte, and
binary-unit branches: negative input gives "0 B"; input below 1024 is an
integer count of bytes; otherwise the largest unit of the descending
binary table whose multiplier is at most the value is rendered by
renderUnit (whose precision is 0, 1 or 2 decimals by the magnitude
thresholds 100 and 10); with the listed concrete values. -/
theorem C5_format_cases :
    (∀ b : ℤ, b < 0 → FormatSize b = "0 B") ∧
    (∀ b : ℤ, 0 ≤ b → b < 1024 →
      FormatSize b = String.mk ((natNumeral b.toNat).append [' ', 'B'])) ∧
    (∀ b : ℤ, 1024 ≤ b → ∃ name mult, (name, mult) ∈ unitsDesc ∧ mult ≤ b ∧
      (∀ p ∈ unitsDesc, p.2 ≤ b → p.2 ≤ mult) ∧
      FormatSize b = String.mk (renderUnit b name mult)) ∧
    FormatSize 0 = "0 B" ∧ FormatSize (-1) = "0 B" ∧ FormatSize 1023 = "1023 B" ∧
    FormatSize 1024 = "1.00 KiB" ∧ FormatSize 1536 = "1.50 KiB" ∧
    FormatSize 10240 = "10.0 KiB" ∧ FormatSize 102400 = "100 KiB" := by
  refine ⟨?_, ?_, ?_, by decide, by decide, by decide, by decide, by decide, by decide,
    by decide⟩
  · intro b hb
    show String.mk (formatSizeL b) = _
    rw [formatSizeL_neg hb]
  · intro b hb1 hb2
    show String.mk (formatSizeL b) = _
    rw [formatSizeL_small hb1 hb2]
  · intro b hb
    rcases formatSizeL_unit_cases hb with ⟨h1, heq⟩ | ⟨h1, h2, heq⟩ | ⟨h1, h2, heq⟩ |
      ⟨h1, h2, heq⟩ | ⟨h1, h2, heq⟩
    · refine ⟨['P', 'i', 'B'], PiB, by simp [unitsDesc], by rw [PiB_eq]; omega, ?_, ?_⟩
      · intro p hp hple
        fin_cases hp <;> simp_all [PiB_eq, TiB_eq, GiB_eq, MiB_eq, KiB_eq] <;> omega
      · show String.mk (formatSizeL b) = _
        rw [heq]
    · refine ⟨['T', 'i', 'B'], TiB, by simp [unitsDesc], by rw [TiB_eq]; omega, ?_, ?_⟩
      · intro p hp hple
        fin_cases hp <;> simp_all [PiB_eq, TiB_eq, GiB_eq, MiB_eq, KiB_eq] <;> omega
      · show String.mk (formatSizeL b) = _
        rw [heq]
    · refine ⟨['G', 'i', 'B'], GiB, by simp [unitsDesc], by rw [GiB_eq]; omega, ?_, ?_⟩
      · intro p hp hple
        fin_cases hp <;> simp_all [PiB_eq, TiB_eq, GiB_eq, MiB_eq, KiB_eq] <;> omega
      · show String.mk (formatSizeL b) = _
        rw [heq]
    · refine ⟨['M', 'i', 'B'], MiB, by simp [unitsDesc], by rw [MiB_eq]; omega, ?_, ?_⟩
      · intro p hp hple
        fin_cases hp <;> simp_all [PiB_eq, TiB_eq, GiB_eq, MiB_eq, KiB_eq] <;> omega
      · show String.mk (formatSizeL b) = _
        rw [heq]
    · refine ⟨['K', 'i', 'B'], KiB, by simp [unitsDesc], by rw [KiB_eq]; omega, ?_, ?_⟩
      · intro p hp hple
        fin_cases hp <;> simp_all [PiB_eq, TiB_eq, GiB_eq, MiB_eq, KiB_eq] <;> omega
      · show String.mk (formatSizeL b) = _
        rw [heq]

theorem C5_witness : FormatSize (-5) = "0 B" := C5_format_cases.1 (-5) (by decide)

/-- C10: every string the formatter produces is accepted by the parser:
for every int64 value b, ParseSize (FormatSize b) returns no error. -/
theorem C10_format_then_parse (b : ℤ) (hlo : -(2 ^ 63) ≤ b) (hhi : b < 2 ^ 63) :
    ∃ n, ParseSize (FormatSize b) = .ok n := by
  show ∃ n, parseSizeL (formatSizeL b) = .ok n
  by_cases hneg : b < 0
  · rw [formatSizeL_neg hneg]
    exact ⟨0, by decide⟩
  · by_cases hsmall : b < 1024
    · rw [formatSizeL_small (not_lt.mp hneg) hsmall]
      have hm53 : b.toNat < 2 ^ 53 := by omega
      have hdig := natNumeral_digits b.toNat
      have hne := natNumeral_ne_nil b.toNat
      have hshape : (natNumeral b.toNat).append [' ', 'B'] =
          natNumeral b.toNat ++ (if ([] : List Char).isEmpty then [] else '.' :: []) ++
            [' '] ++ ['B'] := by
        simp
      rw [hshape]
      have hmatch := parseRegexMatch_exact (natNumeral b.toNat) [] [' '] ['B'] hne hdig
        (by intro c hc; simp at hc)
        (by intro c hc; rw [List.mem_singleton.mp hc]; rfl)
        (by intro c hc; rw [List.mem_singleton.mp hc]; rfl)
      have hLne : natNumeral b.toNat ++ (if ([] : List Char).isEmpty then [] else '.' :: []) ++
          [' '] ++ ['B'] ≠ [] := by
        rw [List.append_assoc, List.append_assoc]
        exact append_ne_nil_left hne
      have htrim : trimSpace (natNumeral b.toNat ++
          (if ([] : List Char).isEmpty then [] else '.' :: []) ++ [' '] ++ ['B']) =
          natNumeral b.toNat ++ (if ([] : List Char).isEmpty then [] else '.' :: []) ++
            [' '] ++ ['B'] := by
        apply trimSpace_of_heads
        · intro c hc
          rw [List.append_assoc, List.append_assoc, head?_append_left hne] at hc
          exact not_isSpaceGo_of_isDigit (hdig c (head?_mem hc))
        · intro c hc
          have hcm : c ∈ ['B'] := reverse_head_mem (by simp) hc
          rw [List.mem_singleton.mp hcm]
          rfl
      have hval : decValue (natNumeral b.toNat) [] = ((b.toNat : ℕ) : ℚ) := by
        unfold decValue
        rw [natOfDigits_natNumeral]
        simp [natOfDigits, pow10]
      have hround : roundCore (decValue (natNumeral b.toNat) []) = ((b.toNat : ℕ) : ℚ) := by
        rw [hval]
        exact roundCore_natCast hm53
      have hpf : parseFloatVal (decValue (natNumeral b.toNat) []) =
          some ((b.toNat : ℕ) : ℚ) := by
        rw [← hround]
        apply parseFloatVal_eq_some
        · rw [hround]
          intro hc
          have hlt : ((b.toNat : ℕ) : ℚ) < pow2 1024 := by
            have h53 : ((b.toNat : ℕ) : ℚ) < ((2 ^ 53 : ℕ) : ℚ) := by exact_mod_cast hm53
            have hbig : ((2 ^ 53 : ℕ) : ℚ) < pow2 1024 := by decide
            exact lt_trans h53 hbig
          exact absurd hc (not_le.mpr hlt)
        · intro hc
          apply hc.1
          have h0 : ((b.toNat : ℕ) : ℚ) = 0 := by rw [← hround, hc.2]
          rw [hval, h0]
      rw [parseSizeL_eq_parseMatched (by rw [htrim]; exact isEmpty_false_of_ne_nil hLne)
        (by rw [htrim]; exact hmatch)]
      rw [@parseMatched_with_unit (natNumeral b.toNat) [] ['B'] ((b.toNat : ℕ) : ℚ) Byte hpf
        (by simp) (by decide)]
      have hnoov : ¬ maxInt64F < roundCore (((b.toNat : ℕ) : ℚ) * ((Byte : ℤ) : ℚ)) := by
        have hByte : ((Byte : ℤ) : ℚ) = 1 := by norm_num [Byte]
        rw [hByte, mul_one, roundCore_natCast hm53, maxInt64F_eq, not_lt, pow2_63]
        have hle : b.toNat ≤ 2 ^ 63 := by omega
        exact_mod_cast hle
      rw [if_neg hnoov]
      exact ⟨_, rfl⟩
    · have hb : 1024 ≤ b := not_lt.mp hsmall
      rcases formatSizeL_unit_cases hb with ⟨h1, heq⟩ | ⟨h1, h2, heq⟩ | ⟨h1, h2, heq⟩ |
        ⟨h1, h2, heq⟩ | ⟨h1, h2, heq⟩
      · rw [heq]
        exact parse_renderUnit PiB_eq (by norm_num) (by norm_num)
          (by rw [PiB_eq]; omega) hhi
          (by intro c hc; fin_cases hc <;> rfl) (by simp) (by decide)
      · rw [heq]
        exact parse_renderUnit TiB_eq (by norm_num) (by norm_num)
          (by rw [TiB_eq]; omega) hhi
          (by intro c hc; fin_cases hc <;> rfl) (by simp) (by decide)
      · rw [heq]
        exact parse_renderUnit GiB_eq (by norm_num) (by norm_num)
          (by rw [GiB_eq]; omega) hhi
          (by intro c hc; fin_cases hc <;> rfl) (by simp) (by decide)
      · rw [heq]
        exact parse_renderUnit MiB_eq (by norm_num) (by norm_num)
          (by rw [MiB_eq]; omega) hhi
          (by intro c hc; fin_cases hc <;> rfl) (by simp) (by decide)
      · rw [heq]
        exact parse_renderUnit KiB_eq (by norm_num) (by norm_num)
          (by rw [KiB_eq]; omega) hhi
          (by intro c hc; fin_cases hc <;> rfl) (by simp) (by decide)

theorem C10_witness : ∃ n, ParseSize (FormatSize 5000) = .ok n :=
  C10_format_then_parse 5000 (by decide) (by decide)

end Filesize
